import Mathlib

/-!
# Verification of the tpkg package-manager core

This file embeds the core data model and algorithms of the `tpkg`
package manager (Go) into Lean 4 and proves properties of the embedding.

Modelling conventions:
* Go strings are modelled as `List Char` (`GoStr`); Go byte strings used by
  the path-escaping component are modelled as `List Nat` with bytes `< 256`.
* Go maps are modelled as association lists with deterministic (insertion)
  iteration order.
* Versions of the external `hashicorp/go-version` library are modelled
  structurally (the explicitly written numeric segments plus pre-release
  and build metadata), with the standard semver ordering.
-/

set_option maxHeartbeats 1000000

/-- Go strings, modelled as lists of characters. -/
abbrev GoStr := List Char

/-- A parsed version (modelled after `hashicorp/go-version.Version`):
the explicitly written dotted numeric segments, the optional pre-release
part and the optional build metadata. -/
structure GoVersion where
  given : List Nat
  pre : GoStr := []
  meta : GoStr := []
deriving DecidableEq, Repr

/-- `Version.Segments()` pads the written segments with zeros to length
at least 3. -/
def pad3 (l : List Nat) : List Nat := l ++ List.replicate (3 - l.length) 0

def GoVersion.segments (v : GoVersion) : List Nat := pad3 v.given

/-- The major version is the first segment. -/
def GoVersion.major (v : GoVersion) : Nat := v.segments.headD 0

/-- Trailing zero segments are insignificant for the semver ordering
(`1.2` and `1.2.0` compare equal). -/
def dropTrailingZeros (l : List Nat) : List Nat :=
  (l.reverse.dropWhile (· = 0)).reverse

/-- Split a string at a separator character. -/
def splitOnChar (sep : Char) (s : GoStr) : List GoStr :=
  match s with
  | [] => [[]]
  | c :: rest =>
    let r := splitOnChar sep rest
    if c = sep then [] :: r
    else match r with
      | [] => [[c]]
      | h :: t => (c :: h) :: t

def isDigitChar (c : Char) : Bool := decide ('0' ≤ c) && decide (c ≤ '9')

def digitsToNat (s : GoStr) : Nat :=
  s.foldl (fun acc c => acc * 10 + (c.toNat - '0'.toNat)) 0

/-- Key of a single pre-release identifier: numeric identifiers compare
numerically and are smaller than alphanumeric ones (standard semver). -/
def identKey (s : GoStr) : Nat ⊕ₗ GoStr :=
  if s ≠ [] ∧ s.all isDigitChar then Sum.inlₗ (digitsToNat s) else Sum.inrₗ s

/-- Modelled from the spec: versions are "comparable by the standard semver
ordering" (the `hashicorp/go-version` comparison is external to this
repository). The key orders by numeric segments (zero-padded), then puts
releases above pre-releases, then compares pre-release identifiers. Build
metadata is ignored. -/
def GoVersion.key (v : GoVersion) : Lex ((List Nat) × Lex (Bool × List (Nat ⊕ₗ GoStr))) :=
  toLex (dropTrailingZeros v.given,
    toLex (decide (v.pre = []), (splitOnChar '.' v.pre).map identKey))

def GoVersion.lessThan (a b : GoVersion) : Bool := decide (a.key < b.key)
def GoVersion.greaterThan (a b : GoVersion) : Bool := decide (b.key < a.key)
def GoVersion.equalV (a b : GoVersion) : Bool := decide (a.key = b.key)

example : GoVersion.lessThan ⟨[1,2,3], [], []⟩ ⟨[1,10], [], []⟩ = true := by decide
example : GoVersion.equalV ⟨[1,2], [], []⟩ ⟨[1,2,0], [], []⟩ = true := by decide
example : GoVersion.lessThan ⟨[1,2,3], ['b'], []⟩ ⟨[1,2,3], [], []⟩ = true := by decide

/-! ## Version constraints (constants.go) -/

/-- Constraint operators of the `go-version` constraint grammar. -/
inductive ConstraintOp
  | eq | ne | lt | le | gt | ge
deriving DecidableEq, Repr

/-- A constraint is a conjunction of range terms `op version`. -/
abbrev Constraints := List (ConstraintOp × GoVersion)

/-- Modelled from the spec: "Evaluation is the standard semver test per
range" (the range check itself lives in the external `go-version`
library). `checkOp op c w` tests candidate `w` against the term `op c`. -/
def checkOp (op : ConstraintOp) (c w : GoVersion) : Bool :=
  match op with
  | .eq => decide (w.key = c.key)
  | .ne => decide (w.key ≠ c.key)
  | .lt => decide (w.key < c.key)
  | .le => decide (w.key ≤ c.key)
  | .gt => decide (c.key < w.key)
  | .ge => decide (c.key ≤ w.key)

/-- `Constraints.Check`: a version must satisfy every term. -/
def checkConstraints (cs : Constraints) (w : GoVersion) : Bool :=
  cs.all (fun t => checkOp t.1 t.2 w)

/-- The two range kinds of `parseConstraintRange` in the source. -/
inductive RangeKind
  | segmentRange | semverRange
deriving DecidableEq, Repr

/-- The upper-bound loop of `parseConstraintRange` for `semverRange`:
walk the segments; the first non-zero segment is incremented and every
subsequent segment is reset to zero. -/
def bumpSegments : List Nat → List Nat
  | [] => []
  | s :: rest =>
    if s ≠ 0 then (s + 1) :: rest.map (fun _ => 0)
    else s :: bumpSegments rest

/-- The number of dots in the version literal that produced `v`: dots
between numeric segments plus any dots inside the pre-release and build
metadata parts (`strings.Count(vStr, ".")` counts them all). -/
def GoVersion.dotCount (v : GoVersion) : Nat :=
  (v.given.length - 1) + v.pre.count '.' + v.meta.count '.'

/-- `parseConstraintRange` from the source, over structured versions.
For `semverRange` the upper bound is the bumped segment list; for
`segmentRange` it depends on the number of dots in the literal; with two
or more dots the constraint is the plain version (an `=` constraint). -/
def parseConstraintRange (v : GoVersion) (kind : RangeKind) : Constraints :=
  let segments := v.segments
  match kind with
  | .semverRange =>
    [(ConstraintOp.ge, v), (ConstraintOp.lt, { given := bumpSegments segments })]
  | .segmentRange =>
    if v.dotCount = 0 then
      [(ConstraintOp.ge, v), (ConstraintOp.lt, { given := [segments.headD 0 + 1, 0, 0] })]
    else if v.dotCount = 1 then
      [(ConstraintOp.ge, v),
       (ConstraintOp.lt, { given := [segments.headD 0, segments.tail.headD 0 + 1, 0] })]
    else
      [(ConstraintOp.eq, v)]

/-- `parseInstallConstraint` from the source. -/
def parseInstallConstraint (v : GoVersion) : Constraints :=
  parseConstraintRange v RangeKind.segmentRange

/-- The caret branch of `parseConstraint`: a term `^v` expands through
`parseConstraintRange(vStr, semverRange)`. -/
def parseConstraintCaretTerm (v : GoVersion) : Constraints :=
  parseConstraintRange v RangeKind.semverRange

theorem map_const_zero (l : List Nat) :
    l.map (fun _ => 0) = List.replicate l.length 0 := by
  induction l with
  | nil => rfl
  | cons a t ih => simp [List.replicate, ih]

/-- On a segment list whose leftmost non-zero element is exposed, the
source's bump loop increments it and zeroes everything after it. -/
theorem bumpSegments_eq_spec (zs : List Nat) (x : Nat) (rest : List Nat)
    (hzs : ∀ z ∈ zs, z = 0) (hx : x ≠ 0) :
    bumpSegments (zs ++ x :: rest) =
      zs ++ (x + 1) :: List.replicate rest.length 0 := by
  induction zs with
  | nil =>
    simp [bumpSegments, hx, map_const_zero]
  | cons z zs' ih =>
    have hz : z = 0 := hzs z (by simp)
    have hzs' : ∀ z ∈ zs', z = 0 := fun z hzm => hzs z (by simp [hzm])
    subst hz
    simp [bumpSegments, ih hzs']

/-- C2: parsing `^v` yields exactly the conjunction `>=v, < next-incompatible(v)`
where next-incompatible increments the leftmost non-zero segment and zeroes
all subsequent segments; a bare `m` yields `>=m, <m+1.0.0`; `m.n` yields
`>=m.n, <m.(n+1).0`; a full `m.n.p` yields `=m.n.p`; and `^0.0.1.4` expands
to `>=0.0.1.4, <0.0.2.0`. The parsed constraint is satisfied by exactly the
versions passing both range checks. -/
theorem parseConstraint_caret_and_install :
    (∀ (v : GoVersion) (zs : List Nat) (x : Nat) (rest : List Nat),
        v.segments = zs ++ x :: rest → (∀ z ∈ zs, z = 0) → x ≠ 0 →
        parseConstraintCaretTerm v =
          [(ConstraintOp.ge, v),
           (ConstraintOp.lt, { given := zs ++ (x + 1) :: List.replicate rest.length 0 })])
    ∧ (∀ (v u : GoVersion) (w : GoVersion),
        checkConstraints [(ConstraintOp.ge, v), (ConstraintOp.lt, u)] w =
          (checkOp ConstraintOp.ge v w && checkOp ConstraintOp.lt u w))
    ∧ (∀ m : Nat, parseInstallConstraint { given := [m] } =
        [(ConstraintOp.ge, { given := [m] }),
         (ConstraintOp.lt, { given := [m + 1, 0, 0] })])
    ∧ (∀ m n : Nat, parseInstallConstraint { given := [m, n] } =
        [(ConstraintOp.ge, { given := [m, n] }),
         (ConstraintOp.lt, { given := [m, n + 1, 0] })])
    ∧ (∀ m n p : Nat, parseInstallConstraint { given := [m, n, p] } =
        [(ConstraintOp.eq, { given := [m, n, p] })])
    ∧ parseConstraintCaretTerm { given := [0, 0, 1, 4] } =
        [(ConstraintOp.ge, { given := [0, 0, 1, 4] }),
         (ConstraintOp.lt, { given := [0, 0, 2, 0] })] := by
  refine ⟨?_, ?_, ?_, ?_, ?_, ?_⟩
  · intro v zs x rest hseg hzs hx
    simp only [parseConstraintCaretTerm, parseConstraintRange, hseg,
      bumpSegments_eq_spec zs x rest hzs hx]
  · intro v u w
    simp [checkConstraints, checkOp]
  · intro m
    simp [parseInstallConstraint, parseConstraintRange, GoVersion.dotCount,
      GoVersion.segments, pad3]
  · intro m n
    simp [parseInstallConstraint, parseConstraintRange, GoVersion.dotCount,
      GoVersion.segments, pad3]
  · intro m n p
    simp [parseInstallConstraint, parseConstraintRange, GoVersion.dotCount,
      GoVersion.segments, pad3]
  · decide

/-- C2 (witness): the caret expansion applied to the concrete version
`0.2.3`, whose leftmost non-zero segment is the second. -/
theorem parseConstraint_caret_and_install_witness :
    parseConstraintCaretTerm { given := [0, 2, 3] } =
      [(ConstraintOp.ge, { given := [0, 2, 3] }),
       (ConstraintOp.lt, { given := [0, 3, 0] })] := by
  have h := parseConstraint_caret_and_install.1 { given := [0, 2, 3] }
    [0] 2 [3] (by decide) (by decide) (by decide)
  simpa using h

/-! ## Path / URI escaping (pkg/compiler/path.go)

URLs are byte strings in Go; we model them as `List Nat` with every byte
below 256. -/

abbrev ByteStr := List Nat

/-- Split a list at a separator element (like `strings.Split`). -/
def splitOnSep {α : Type} [DecidableEq α] (sep : α) (s : List α) : List (List α) :=
  match s with
  | [] => [[]]
  | c :: rest =>
    let r := splitOnSep sep rest
    if c = sep then [] :: r
    else match r with
      | [] => [[c]]
      | h :: t => (c :: h) :: t

/-- Join with a separator element (like `strings.Join`). -/
def joinSep {α : Type} (sep : α) : List (List α) → List α
  | [] => []
  | [x] => x
  | x :: y :: rest => x ++ sep :: joinSep sep (y :: rest)

/-- Modelled from the spec: "percent-encode each segment using URL
path-escaping" (Go's `net/url.PathEscape`, external to this repository).
A byte is kept exactly if it is alphanumeric, one of `-_.~`, or one of
the sub-delimiters `$&+:=@` allowed in a path segment. -/
def shouldEscapeByte (b : Nat) : Bool :=
  !((48 ≤ b && b ≤ 57) || (65 ≤ b && b ≤ 90) || (97 ≤ b && b ≤ 122) ||
    (b = 45 || b = 95 || b = 46 || b = 126) ||
    (b = 36 || b = 38 || b = 43 || b = 58 || b = 61 || b = 64))

/-- Upper-case hexadecimal digit of a value below 16, as a byte. -/
def hexUpper (n : Nat) : Nat := if n < 10 then 48 + n else 55 + n

def escapeByte (b : Nat) : ByteStr := [37, hexUpper (b / 16), hexUpper (b % 16)]

/-- `url.PathEscape` on one segment. -/
def pathEscapeSeg (s : ByteStr) : ByteStr :=
  s.flatMap (fun b => if shouldEscapeByte b then escapeByte b else [b])

/-- Value of one hexadecimal digit byte. -/
def unhexByte (b : Nat) : Option Nat :=
  if 48 ≤ b ∧ b ≤ 57 then some (b - 48)
  else if 65 ≤ b ∧ b ≤ 70 then some (b - 55)
  else if 97 ≤ b ∧ b ≤ 102 then some (b - 87)
  else none

/-- `url.PathUnescape`: decode `%XX` sequences, failing on malformed ones. -/
def pathUnescape : ByteStr → Option ByteStr
  | [] => some []
  | b :: rest =>
    if b = 37 then
      match rest with
      | a :: c :: rest' =>
        match unhexByte a, unhexByte c with
        | some x, some y => (pathUnescape rest').map (fun r => (16 * x + y) :: r)
        | _, _ => none
      | _ => none
    else (pathUnescape rest).map (fun r => b :: r)

/-- Does the byte string end in the given byte? (`strings.HasSuffix` with a
one-byte suffix). -/
def endsWithByte (x : Nat) : ByteStr → Bool
  | [] => false
  | [b] => decide (b = x)
  | _ :: c :: rest => endsWithByte x (c :: rest)

/-- ASCII upper-casing of one byte. (`strings.ToUpper` is applied to
escaped segments, which are pure ASCII.) -/
def toUpperByte (b : Nat) : Nat := if 97 ≤ b ∧ b ≤ 122 then b - 32 else b

/-- The reserved Windows device names checked by `ToURIPath`. -/
def reservedDeviceNames : List ByteStr :=
  ["CON", "PRN", "AUX", "NUL",
   "COM1", "COM2", "COM3", "COM4", "COM5", "COM6", "COM7", "COM8", "COM9",
   "LPT1", "LPT2", "LPT3", "LPT4", "LPT5", "LPT6", "LPT7", "LPT8",
   "LPT9"].map (fun s => s.data.map Char.toNat)

/-- `all_dangerous` from the source: the empty segment plus the reserved
device names. -/
def allDangerous : List ByteStr := [] :: reservedDeviceNames

/-- First marker step of `ToURIPath`: append a `%` if the upper-cased
escaped segment is a dangerous name. -/
def dangerGuard (e : ByteStr) : ByteStr :=
  if allDangerous.contains (e.map toUpperByte) then e ++ [37] else e

/-- Second marker step of `ToURIPath`: append a `%` if the segment now
ends in `.`. -/
def dotGuard (e : ByteStr) : ByteStr :=
  if endsWithByte 46 e then e ++ [37] else e

/-- Encoding of one segment inside `ToURIPath`: path-escape, then append a
`%` marker if the upper-cased result is a dangerous name, then append a
`%` marker if the result ends in `.`. -/
def toURIPathSeg (s : ByteStr) : ByteStr :=
  dotGuard (dangerGuard (pathEscapeSeg s))

/-- `compiler.ToURIPath`. -/
def ToURIPath (u : ByteStr) : ByteStr :=
  joinSep 47 ((splitOnSep 47 u).map toURIPathSeg)

/-- The marker strip of `URIPath.URL`: drop a trailing `%` byte. -/
def stripMarker (s : ByteStr) : ByteStr :=
  if endsWithByte 37 s then s.dropLast else s

/-- Decoding of one segment inside `URIPath.URL`: strip a trailing `%`,
then path-unescape (a failed unescape yields the empty string, as the
source ignores the error and Go returns `""` with it). -/
def uriPathSegURL (s : ByteStr) : ByteStr :=
  (pathUnescape (stripMarker s)).getD []

/-- `URIPath.URL`. -/
def uriPathToURL (p : ByteStr) : ByteStr :=
  joinSep 47 ((splitOnSep 47 p).map uriPathSegURL)

example : ToURIPath ("a b/CON/x.".data.map Char.toNat) =
    "a%20b/CON%/x.%".data.map Char.toNat := by decide
example : uriPathToURL ("a%20b/CON%/x.%".data.map Char.toNat) =
    "a b/CON/x.".data.map Char.toNat := by decide

theorem unhexByte_hexUpper {n : Nat} (h : n < 16) : unhexByte (hexUpper n) = some n := by
  unfold unhexByte hexUpper
  split
  · split
    · congr 1
      omega
    · omega
  · split
    · omega
    · split
      · congr 1
        omega
      · omega

theorem shouldEscapeByte_37 : shouldEscapeByte 37 = true := by decide

theorem shouldEscapeByte_47 : shouldEscapeByte 47 = true := by decide

theorem pathEscapeSeg_cons (b : Nat) (rest : ByteStr) :
    pathEscapeSeg (b :: rest) =
      (if shouldEscapeByte b then escapeByte b else [b]) ++ pathEscapeSeg rest := by
  simp [pathEscapeSeg]

theorem pathUnescape_cons_ne37 {b : Nat} (hb : ¬ b = 37) (t : ByteStr) :
    pathUnescape (b :: t) = (pathUnescape t).map (fun r => b :: r) := by
  rw [pathUnescape.eq_def]
  simp [hb]

theorem pathUnescape_pct (a c : Nat) (t : ByteStr) {x y : Nat}
    (ha : unhexByte a = some x) (hc : unhexByte c = some y) :
    pathUnescape (37 :: a :: c :: t) =
      (pathUnescape t).map (fun r => (16 * x + y) :: r) := by
  rw [pathUnescape.eq_def]
  simp [ha, hc]

/-- Path-unescaping inverts path-escaping on byte strings. -/
theorem pathUnescape_pathEscapeSeg (s : ByteStr) (h : ∀ b ∈ s, b < 256) :
    pathUnescape (pathEscapeSeg s) = some s := by
  induction s with
  | nil => rfl
  | cons b rest ih =>
    have hb : b < 256 := h b (by simp)
    have hrest : ∀ x ∈ rest, x < 256 := fun x hx => h x (by simp [hx])
    rw [pathEscapeSeg_cons]
    by_cases hesc : shouldEscapeByte b = true
    · rw [if_pos hesc]
      have h1 : unhexByte (hexUpper (b / 16)) = some (b / 16) :=
        unhexByte_hexUpper (by omega)
      have h2 : unhexByte (hexUpper (b % 16)) = some (b % 16) :=
        unhexByte_hexUpper (by omega)
      show pathUnescape (37 :: hexUpper (b / 16) :: hexUpper (b % 16) ::
        pathEscapeSeg rest) = some (b :: rest)
      rw [pathUnescape_pct _ _ _ h1 h2, ih hrest]
      have harith : 16 * (b / 16) + b % 16 = b := by omega
      simp [harith]
    · rw [if_neg hesc]
      have hb37 : ¬ b = 37 := by
        intro hh
        rw [hh] at hesc
        exact hesc shouldEscapeByte_37
      show pathUnescape (b :: pathEscapeSeg rest) = some (b :: rest)
      rw [pathUnescape_cons_ne37 hb37, ih hrest]
      rfl

theorem endsWithByte_append (x : Nat) (l m : ByteStr) (hm : m ≠ []) :
    endsWithByte x (l ++ m) = endsWithByte x m := by
  induction l with
  | nil => rfl
  | cons a l' ih =>
    cases hlm : l' ++ m with
    | nil => exact absurd (List.append_eq_nil.mp hlm).2 hm
    | cons c t =>
      show endsWithByte x (a :: (l' ++ m)) = endsWithByte x m
      rw [hlm]
      show endsWithByte x (c :: t) = endsWithByte x m
      rw [← hlm, ih]

theorem hexUpper_ge_48 (n : Nat) : 48 ≤ hexUpper n := by
  unfold hexUpper
  split <;> omega

/-- The escaped form of a segment never ends in a `%` byte. -/
theorem pathEscapeSeg_not_ends_37 (s : ByteStr) :
    endsWithByte 37 (pathEscapeSeg s) = false := by
  induction s with
  | nil => rfl
  | cons b rest ih =>
    rw [pathEscapeSeg_cons]
    cases hrest : pathEscapeSeg rest with
    | nil =>
      rw [List.append_nil]
      by_cases hesc : shouldEscapeByte b = true
      · rw [if_pos hesc]
        show endsWithByte 37 [37, hexUpper (b / 16), hexUpper (b % 16)] = false
        have h48 := hexUpper_ge_48 (b % 16)
        simp only [endsWithByte, decide_eq_false_iff_not]
        omega
      · rw [if_neg hesc]
        have hb37 : ¬ b = 37 := by
          intro hh
          rw [hh] at hesc
          exact hesc shouldEscapeByte_37
        simp [endsWithByte, hb37]
    | cons c t =>
      rw [endsWithByte_append 37 _ _ (List.cons_ne_nil _ _), ← hrest]
      exact ih

theorem endsWithByte_concat (x a : Nat) (l : ByteStr) :
    endsWithByte x (l ++ [a]) = decide (a = x) := by
  rw [endsWithByte_append x l [a] (List.cons_ne_nil _ _)]
  rfl

theorem stripMarker_concat37 (e : ByteStr) : stripMarker (e ++ [37]) = e := by
  unfold stripMarker
  rw [endsWithByte_concat]
  simp

theorem stripMarker_of_not37 {e : ByteStr} (h : endsWithByte 37 e = false) :
    stripMarker e = e := by
  unfold stripMarker
  rw [h]
  simp

/-- Round trip on a single segment: decoding inverts encoding, stripping
the `%` marker when one was appended. -/
theorem uriPathSegURL_toURIPathSeg (s : ByteStr) (h : ∀ b ∈ s, b < 256) :
    uriPathSegURL (toURIPathSeg s) = s := by
  have hmarker : uriPathSegURL (pathEscapeSeg s ++ [37]) = s := by
    unfold uriPathSegURL
    rw [stripMarker_concat37, pathUnescape_pathEscapeSeg s h]
    rfl
  have hplain : uriPathSegURL (pathEscapeSeg s) = s := by
    unfold uriPathSegURL
    rw [stripMarker_of_not37 (pathEscapeSeg_not_ends_37 s),
      pathUnescape_pathEscapeSeg s h]
    rfl
  unfold toURIPathSeg dotGuard dangerGuard
  by_cases hdang : allDangerous.contains ((pathEscapeSeg s).map toUpperByte) = true
  · rw [if_pos hdang, endsWithByte_concat]
    simp only [show decide ((37 : Nat) = 46) = false by decide, Bool.false_eq_true,
      if_false]
    exact hmarker
  · rw [if_neg hdang]
    by_cases hdot : endsWithByte 46 (pathEscapeSeg s) = true
    · rw [if_pos hdot]
      exact hmarker
    · rw [if_neg hdot]
      exact hplain

theorem splitOnSep_ne_nil {α : Type} [DecidableEq α] (sep : α) (s : List α) :
    splitOnSep sep s ≠ [] := by
  cases s with
  | nil => simp [splitOnSep]
  | cons c rest =>
    simp only [splitOnSep]
    split
    · simp
    · split
      · simp
      · simp

theorem joinSep_splitOnSep {α : Type} [DecidableEq α] (sep : α) (s : List α) :
    joinSep sep (splitOnSep sep s) = s := by
  induction s with
  | nil => rfl
  | cons c rest ih =>
    simp only [splitOnSep]
    by_cases hc : c = sep
    · rw [if_pos hc]
      cases hr : splitOnSep sep rest with
      | nil => exact absurd hr (splitOnSep_ne_nil sep rest)
      | cons h t =>
        show joinSep sep ([] :: h :: t) = c :: rest
        rw [joinSep, List.nil_append, hc]
        rw [hr] at ih
        rw [ih]
    · rw [if_neg hc]
      cases hr : splitOnSep sep rest with
      | nil => exact absurd hr (splitOnSep_ne_nil sep rest)
      | cons h t =>
        rw [hr] at ih
        cases t with
        | nil =>
          show joinSep sep [c :: h] = c :: rest
          rw [joinSep]
          rw [joinSep] at ih
          rw [ih]
        | cons y t' =>
          show joinSep sep ((c :: h) :: y :: t') = c :: rest
          rw [joinSep, List.cons_append, ← joinSep, ih]

theorem splitOnSep_sepFree {α : Type} [DecidableEq α] (sep : α) (s : List α)
    (h : ∀ c ∈ s, ¬ c = sep) : splitOnSep sep s = [s] := by
  induction s with
  | nil => rfl
  | cons c rest ih =>
    have hc : ¬ c = sep := h c (by simp)
    have hrest : ∀ x ∈ rest, ¬ x = sep := fun x hx => h x (by simp [hx])
    simp only [splitOnSep, if_neg hc, ih hrest]

theorem splitOnSep_append_sep {α : Type} [DecidableEq α] (sep : α) (x t : List α)
    (h : ∀ c ∈ x, ¬ c = sep) :
    splitOnSep sep (x ++ sep :: t) = x :: splitOnSep sep t := by
  induction x with
  | nil => simp [splitOnSep]
  | cons c x' ih =>
    have hc : ¬ c = sep := h c (by simp)
    have hx' : ∀ y ∈ x', ¬ y = sep := fun y hy => h y (by simp [hy])
    simp only [List.cons_append, splitOnSep, if_neg hc, List.append_eq]
    rw [ih hx']

theorem splitOnSep_joinSep {α : Type} [DecidableEq α] (sep : α) (l : List (List α))
    (hl : l ≠ []) (h : ∀ seg ∈ l, ∀ c ∈ seg, ¬ c = sep) :
    splitOnSep sep (joinSep sep l) = l := by
  induction l with
  | nil => exact absurd rfl hl
  | cons x l' ih =>
    cases l' with
    | nil =>
      rw [joinSep]
      exact splitOnSep_sepFree sep x (h x (by simp))
    | cons y t =>
      rw [joinSep]
      rw [splitOnSep_append_sep sep x _ (h x (by simp))]
      rw [ih (List.cons_ne_nil _ _) (fun seg hseg c hc => h seg (by simp [hseg]) c hc)]

theorem mem_of_mem_splitOnSep {α : Type} [DecidableEq α] (sep : α) (s : List α) :
    ∀ seg ∈ splitOnSep sep s, ∀ c ∈ seg, c ∈ s := by
  induction s with
  | nil =>
    intro seg hseg c hc
    simp [splitOnSep] at hseg
    subst hseg
    simp at hc
  | cons b rest ih =>
    intro seg hseg c hc
    simp only [splitOnSep] at hseg
    by_cases hb : b = sep
    · rw [if_pos hb] at hseg
      rcases List.mem_cons.mp hseg with h1 | h2
      · subst h1
        simp at hc
      · exact List.mem_cons_of_mem b (ih seg h2 c hc)
    · rw [if_neg hb] at hseg
      cases hr : splitOnSep sep rest with
      | nil => exact absurd hr (splitOnSep_ne_nil sep rest)
      | cons h t =>
        rw [hr] at hseg
        rcases List.mem_cons.mp hseg with h1 | h2
        · subst h1
          rcases List.mem_cons.mp hc with h3 | h4
          · simp [h3]
          · have : h ∈ splitOnSep sep rest := by rw [hr]; exact List.mem_cons_self _ _
            exact List.mem_cons_of_mem b (ih h this c h4)
        · have : seg ∈ splitOnSep sep rest := by rw [hr]; exact List.mem_cons_of_mem _ h2
          exact List.mem_cons_of_mem b (ih seg this c hc)

theorem mem_pathEscapeSeg_ne47 (s : ByteStr) : ∀ c ∈ pathEscapeSeg s, ¬ c = 47 := by
  intro c hc
  unfold pathEscapeSeg at hc
  rw [List.mem_flatMap] at hc
  obtain ⟨b, _, hcb⟩ := hc
  by_cases hesc : shouldEscapeByte b = true
  · rw [if_pos hesc] at hcb
    unfold escapeByte at hcb
    have h1 := hexUpper_ge_48 (b / 16)
    have h2 := hexUpper_ge_48 (b % 16)
    simp at hcb
    rcases hcb with h | h | h <;> omega
  · rw [if_neg hesc] at hcb
    simp at hcb
    subst hcb
    intro hb
    rw [hb] at hesc
    exact hesc shouldEscapeByte_47

theorem mem_toURIPathSeg_ne47 (s : ByteStr) : ∀ c ∈ toURIPathSeg s, ¬ c = 47 := by
  intro c hc
  unfold toURIPathSeg dotGuard dangerGuard at hc
  have base := mem_pathEscapeSeg_ne47 s
  have step : ∀ (e : ByteStr), (∀ x ∈ e, ¬ x = 47) → ∀ x ∈ e ++ [37], ¬ x = 47 := by
    intro e he x hx
    rcases List.mem_append.mp hx with h | h
    · exact he x h
    · simp at h
      omega
  split at hc
  · split at hc
    · exact step _ (step _ base) c hc
    · exact step _ base c hc
  · split at hc
    · exact step _ base c hc
    · exact base c hc

/-- The full round trip: `URIPath.URL` inverts `ToURIPath` on every byte
string; in particular the trailing `%` markers appended by the encoder are
removed again by the decoder. -/
theorem uriPathToURL_ToURIPath (x : ByteStr) (h : ∀ b ∈ x, b < 256) :
    uriPathToURL (ToURIPath x) = x := by
  unfold ToURIPath uriPathToURL
  rw [splitOnSep_joinSep 47 _ (by
      intro hx
      exact splitOnSep_ne_nil 47 x (List.map_eq_nil_iff.mp hx))
    (by
      intro seg hseg c hc
      rw [List.mem_map] at hseg
      obtain ⟨orig, _, horig⟩ := hseg
      subst horig
      exact mem_toURIPathSeg_ne47 orig c hc)]
  rw [List.map_map]
  rw [List.map_congr_left (fun seg hseg => by
    show uriPathSegURL (toURIPathSeg seg) = id seg
    exact uriPathSegURL_toURIPathSeg seg
      (fun b hb => h b (mem_of_mem_splitOnSep 47 x seg hseg b hb)))]
  rw [List.map_id]
  exact joinSep_splitOnSep 47 x

/-- The claim's safety condition on the `/`-separated segments of the input:
non-empty, not upper-casing to a reserved device name, not ending in `.`. -/
def segmentsSafe (x : ByteStr) : Prop :=
  ∀ seg ∈ splitOnSep 47 x, seg ≠ [] ∧
    ¬ (seg.map toUpperByte) ∈ reservedDeviceNames ∧ endsWithByte 46 seg = false

instance (x : ByteStr) : Decidable (segmentsSafe x) := by
  unfold segmentsSafe
  infer_instance

/-- C3: for every byte string whose `/`-separated segments are all non-empty,
none a reserved device name (up to case) and none ending in `.`, decoding the
encoded form gives back the input; and on all other inputs the decoding also
returns the input, the trailing `%` markers appended by the encoder being
removed by the decoder. -/
theorem uriPath_roundtrip_claim :
    (∀ x : ByteStr, (∀ b ∈ x, b < 256) → segmentsSafe x →
      uriPathToURL (ToURIPath x) = x)
    ∧ (∀ x : ByteStr, (∀ b ∈ x, b < 256) →
      uriPathToURL (ToURIPath x) = x) :=
  ⟨fun x h _ => uriPathToURL_ToURIPath x h, fun x h => uriPathToURL_ToURIPath x h⟩

/-- C3 (witness): the round trip evaluated on the concrete safe input
`github.com/a/b-c` and on the concrete unsafe input `con/x.` (which gains
and loses `%` markers). -/
theorem uriPath_roundtrip_claim_witness :
    uriPathToURL (ToURIPath ("github.com/a/b-c".data.map Char.toNat)) =
      "github.com/a/b-c".data.map Char.toNat
    ∧ uriPathToURL (ToURIPath ("con/x.".data.map Char.toNat)) =
      "con/x.".data.map Char.toNat :=
  ⟨uriPath_roundtrip_claim.1 ("github.com/a/b-c".data.map Char.toNat)
      (by decide) (by decide),
   uriPath_roundtrip_claim.2 ("con/x.".data.map Char.toNat) (by decide)⟩

/-! ## Prefix/name validation (`isValidName` in the spec model) -/

def isAlphaUChar (c : Char) : Bool :=
  (decide ('a' ≤ c) && decide (c ≤ 'z')) || (decide ('A' ≤ c) && decide (c ≤ 'Z'))
    || decide (c = '_')

def isAlnumUChar (c : Char) : Bool := isAlphaUChar c || isDigitChar c

/-- Matcher for the regex tail `(-?[a-zA-Z0-9_])*`: every dash must be
immediately followed by an alphanumeric or underscore character. -/
def validNameTail : GoStr → Bool
  | [] => true
  | c :: rest =>
    if c = '-' then
      match rest with
      | [] => false
      | d :: r => isAlnumUChar d && validNameTail r
    else
      isAlnumUChar c && validNameTail rest

/-- `isValidName` from the source: the regex `^[a-zA-Z_](-?[a-zA-Z0-9_])*$`. -/
def isValidName : GoStr → Bool
  | [] => false
  | c :: rest => isAlphaUChar c && validNameTail rest

def hasDoubleDash : GoStr → Bool
  | a :: b :: rest => (decide (a = '-') && decide (b = '-')) || hasDoubleDash (b :: rest)
  | _ => false

def endsWithDash : GoStr → Bool
  | [] => false
  | [c] => decide (c = '-')
  | _ :: c :: rest => endsWithDash (c :: rest)

/-- The acceptance rule stated by the claim: the string matches
`[A-Za-z_][A-Za-z0-9_-]*` and contains no two consecutive dashes. -/
def claimNameRule (s : GoStr) : Bool :=
  match s with
  | [] => false
  | c :: rest =>
    isAlphaUChar c && rest.all (fun d => isAlnumUChar d || decide (d = '-'))
      && !hasDoubleDash s

theorem hasDoubleDash_cons_of_ne {c : Char} (h : ¬ c = '-') (t : GoStr) :
    hasDoubleDash (c :: t) = hasDoubleDash t := by
  cases t with
  | nil => rfl
  | cons b r => simp [hasDoubleDash, h]

theorem isAlnumUChar_ne_dash {c : Char} (h : isAlnumUChar c = true) : ¬ c = '-' := by
  intro hc
  subst hc
  simp [isAlnumUChar, isAlphaUChar, isDigitChar] at h

theorem validNameTail_iff (t : GoStr) :
    validNameTail t = (t.all (fun d => isAlnumUChar d || decide (d = '-'))
      && !hasDoubleDash t && !endsWithDash t) := by
  induction t using validNameTail.induct with
  | case1 => rfl
  | case2 =>
    simp [validNameTail, hasDoubleDash, endsWithDash]
  | case3 d r ih =>
    simp only [validNameTail, if_pos rfl]
    cases hd : isAlnumUChar d with
    | false =>
      by_cases hdash : d = '-'
      · subst hdash
        simp [hasDoubleDash]
      · simp [hd, List.all_cons, hdash]
    | true =>
      have hne : ¬ d = '-' := isAlnumUChar_ne_dash hd
      simp only [Bool.true_and, ih, List.all_cons, hd, decide_eq_true_eq]
      rw [show hasDoubleDash ('-' :: d :: r) = hasDoubleDash (d :: r) by
            simp [hasDoubleDash, hne],
          hasDoubleDash_cons_of_ne hne r]
      cases r with
      | nil => simp [endsWithDash, hne]
      | cons x xs =>
        simp only [endsWithDash]
        simp [Bool.and_assoc]
  | case4 c rest h ih =>
    have hv : validNameTail (c :: rest) = (isAlnumUChar c && validNameTail rest) := by
      rw [validNameTail.eq_def]
      simp [h]
    rw [hv]
    cases hc : isAlnumUChar c with
    | false => simp [hc, List.all_cons, h]
    | true =>
      simp only [Bool.true_and, ih, List.all_cons, hc, Bool.true_or,
        hasDoubleDash_cons_of_ne h rest]
      cases rest with
      | nil =>
        have : ¬ c = '-' := isAlnumUChar_ne_dash hc
        simp [endsWithDash, this]
      | cons x xs =>
        simp [endsWithDash, Bool.and_assoc]

/-- C9 (counterexample): at the concrete input `"a-"` the validity check and
the claim's rule disagree: the claim's rule accepts a trailing dash, the
regex in the source does not. -/
theorem isValidName_claim_counterexample :
    ¬ (isValidName "a-".data = true ↔ claimNameRule "a-".data = true) := by
  decide

/-- C9 (amended): the validity check accepts exactly the strings that match
`[A-Za-z_][A-Za-z0-9_-]*`, contain no two consecutive dashes, and do not
end in a dash. -/
theorem isValidName_iff_claimRule (s : GoStr) :
    isValidName s = (claimNameRule s && !endsWithDash s) := by
  cases s with
  | nil => rfl
  | cons c rest =>
    simp only [isValidName, claimNameRule, validNameTail_iff]
    cases hc : isAlphaUChar c with
    | false => simp [hc]
    | true =>
      have hcd : ¬ c = '-' := by
        intro h
        subst h
        simp [isAlphaUChar] at hc
      simp only [Bool.true_and, hasDoubleDash_cons_of_ne hcd rest]
      cases rest with
      | nil => simp [endsWithDash, hcd]
      | cons x xs =>
        simp [endsWithDash, Bool.and_assoc]

/-! ## Lock-file `PackageEntry` validation -/

/-- Prefix maps, from prefix to package-id, as ordered association lists. -/
abbrev PrefixMap := List (GoStr × GoStr)

/-- One entry of a lock file (`PackageEntry` in the source). -/
structure PackageEntry where
  url : GoStr := []
  name : GoStr := []
  version : GoStr := []
  path : GoStr := []
  hash : GoStr := []
  prefixes : PrefixMap := []
deriving DecidableEq, Repr

/-- `PackageEntry.Validate` from the source: reject a non-empty url with an
empty version, and reject an entry with neither url nor path. -/
def PackageEntry.validate (pe : PackageEntry) : Except GoStr Unit :=
  if pe.url ≠ [] ∧ pe.version = [] then
    .error "Invalid lock file: url without version".data
  else if pe.url = [] ∧ pe.path = [] then
    .error "Invalid lock file: missing 'url' and 'path'".data
  else
    .ok ()

/-! ## Spec and lock-file model, reading and validation -/

/-- One dependency in a spec file (`SpecPackage` in the source). -/
structure SpecPackage where
  url : GoStr := []
  version : GoStr := []
  path : GoStr := []
deriving DecidableEq, Repr

/-- The project's spec (`Spec` in the source); only the fields the claims
touch are carried. -/
structure Spec where
  name : GoStr := []
  description : GoStr := []
  license : GoStr := []
  sdk : GoStr := []
  deps : List (GoStr × SpecPackage) := []
deriving DecidableEq, Repr

/-- A lock file (`LockFile` in the source). -/
structure LockFile where
  sdk : GoStr := []
  prefixes : PrefixMap := []
  packages : List (GoStr × PackageEntry) := []
deriving DecidableEq, Repr

/-- Association-list lookup, the model of Go map indexing. -/
def lookupA {β : Type} (m : List (GoStr × β)) (k : GoStr) : Option β :=
  (m.find? (fun e => e.1 = k)).map (fun e => e.2)

/-- Remove the entry of a key (`delete` on a Go map). -/
def eraseKey {β : Type} (m : List (GoStr × β)) (k : GoStr) : List (GoStr × β) :=
  m.filter (fun e => ¬ e.1 = k)

/-- Concatenate with a separator string (`strings.Join`). -/
def joinStrs (sep : GoStr) : List GoStr → GoStr
  | [] => []
  | [x] => x
  | x :: y :: rest => x ++ sep ++ joinStrs sep (y :: rest)

/-- Lexicographic byte order on strings, as used by `sort.Strings`. -/
def goStrLe (a b : GoStr) : Bool :=
  match a, b with
  | [], _ => true
  | _ :: _, [] => false
  | c :: a', d :: b' => if c = d then goStrLe a' b' else decide (c < d)

def insertSorted (x : GoStr) : List GoStr → List GoStr
  | [] => [x]
  | y :: rest => if goStrLe x y then x :: y :: rest else y :: insertSorted x rest

/-- `sort.Strings`. -/
def sortStrings (l : List GoStr) : List GoStr := l.foldr insertSorted []

/-- The prefixes of the lock file that do not occur in the spec's
dependency map, in lock-prefix order. -/
def missingPrefixes (spec : Spec) (lf : LockFile) : List GoStr :=
  (lf.prefixes.map Prod.fst).filter (fun p => (lookupA spec.deps p).isNone)

/-- The both-files-present path of `readSpecAndLock`: check that every
prefix of the lock file is declared in the spec, and refuse with an error
naming the missing prefixes otherwise. -/
def readSpecAndLockBoth (spec : Spec) (lf : LockFile) :
    Except GoStr (Spec × LockFile) :=
  if (missingPrefixes spec lf).length = 1 then
    .error ("Lock file has prefix that isn't in package.yaml: '".data
      ++ (missingPrefixes spec lf).headD [] ++ "'".data)
  else if (missingPrefixes spec lf).length > 1 then
    .error ("Lock file has prefixes that aren't in package.yaml: ".data
      ++ joinStrs ", ".data (sortStrings (missingPrefixes spec lf)))
  else
    .ok (spec, lf)

theorem mem_insertSorted (x y : GoStr) (l : List GoStr) :
    y ∈ insertSorted x l ↔ y = x ∨ y ∈ l := by
  induction l with
  | nil => simp [insertSorted]
  | cons z rest ih =>
    unfold insertSorted
    split
    · simp
    · simp only [List.mem_cons, ih]
      tauto

theorem mem_sortStrings (x : GoStr) (l : List GoStr) :
    x ∈ l → x ∈ sortStrings l := by
  induction l with
  | nil => simp
  | cons y rest ih =>
    intro hx
    unfold sortStrings
    rcases List.mem_cons.mp hx with h | h
    · subst h
      exact (mem_insertSorted x x _).mpr (Or.inl rfl)
    · exact (mem_insertSorted y x _).mpr (Or.inr (ih h))

theorem infix_joinStrs (sep : GoStr) (x : GoStr) (l : List GoStr) (h : x ∈ l) :
    x <:+: joinStrs sep l := by
  induction l with
  | nil => simp at h
  | cons y rest ih =>
    cases rest with
    | nil =>
      simp at h
      subst h
      exact List.infix_rfl
    | cons z rest' =>
      rcases List.mem_cons.mp h with h1 | h2
      · subst h1
        rw [joinStrs]
        exact ⟨[], sep ++ joinStrs sep (z :: rest'), by simp⟩
      · obtain ⟨s, t, hst⟩ := ih h2
        rw [joinStrs]
        refine ⟨y ++ sep ++ s, t, ?_⟩
        rw [← hst]
        simp [List.append_assoc]

/-- C6: when both a lock file and a spec are present, reading proceeds
exactly when every lock prefix occurs in the spec's dependency map, and
otherwise fails with an error listing the missing prefixes and returns
neither spec nor lock. -/
theorem readSpecAndLock_prefix_check (spec : Spec) (lf : LockFile) :
    (missingPrefixes spec lf = [] →
      readSpecAndLockBoth spec lf = .ok (spec, lf))
    ∧ (missingPrefixes spec lf ≠ [] →
      ∃ msg, readSpecAndLockBoth spec lf = .error msg ∧
        ∀ p ∈ missingPrefixes spec lf, p <:+: msg) := by
  constructor
  · intro h
    unfold readSpecAndLockBoth
    rw [h]
    simp
  · intro h
    unfold readSpecAndLockBoth
    cases hm : missingPrefixes spec lf with
    | nil => exact absurd hm h
    | cons p rest =>
      cases rest with
      | nil =>
        rw [if_pos (by simp)]
        refine ⟨_, rfl, ?_⟩
        intro q hq
        simp at hq
        subst hq
        refine ⟨"Lock file has prefix that isn't in package.yaml: '".data,
          "'".data, ?_⟩
        simp
      | cons p2 rest2 =>
        rw [if_neg (by simp), if_pos (by simp)]
        refine ⟨_, rfl, ?_⟩
        intro q hq
        have hq' : q ∈ sortStrings (p :: p2 :: rest2) := mem_sortStrings q _ hq
        have hinf : q <:+: joinStrs ", ".data (sortStrings (p :: p2 :: rest2)) :=
          infix_joinStrs _ q _ hq'
        obtain ⟨s, t, hst⟩ := hinf
        refine ⟨"Lock file has prefixes that aren't in package.yaml: ".data ++ s, t, ?_⟩
        rw [← hst]
        simp [List.append_assoc]

/-- C6 (witness): a lock with prefixes `a, b` against a spec declaring only
`a` fails and names `b`; against a spec declaring both it proceeds. -/
theorem readSpecAndLock_prefix_check_witness :
    (readSpecAndLockBoth { deps := [("a".data, { url := "u".data })] }
        { prefixes := [("a".data, "pkg0".data), ("b".data, "pkg1".data)] }).isOk = false
    ∧ (readSpecAndLockBoth
        { deps := [("a".data, { url := "u".data }), ("b".data, { url := "v".data })] }
        { prefixes := [("a".data, "pkg0".data), ("b".data, "pkg1".data)] }).isOk = true := by
  constructor
  · obtain ⟨msg, hmsg, -⟩ :=
      (readSpecAndLock_prefix_check { deps := [("a".data, { url := "u".data })] }
        { prefixes := [("a".data, "pkg0".data), ("b".data, "pkg1".data)] }).2
        (by decide)
    rw [hmsg]
    rfl
  · have h :=
      (readSpecAndLock_prefix_check
        { deps := [("a".data, { url := "u".data }), ("b".data, { url := "v".data })] }
        { prefixes := [("a".data, "pkg0".data), ("b".data, "pkg1".data)] }).1
        (by decide)
    rw [h]
    rfl

/-! ## Lock-file id optimizer (`optimizePkgIDs`)

Go maps iterate in random order; the model fixes the deterministic
insertion order of association lists. The loops are given fuel; the
evaluation below uses enough fuel for its input. -/

/-- `insertA m k v` is Go map assignment `m[k] = v`: overwrite or append. -/
def insertA {β : Type} (m : List (GoStr × β)) (k : GoStr) (v : β) :
    List (GoStr × β) :=
  if (lookupA m k).isSome then
    m.map (fun e => if e.1 = k then (k, v) else e)
  else m ++ [(k, v)]

/-- `appendA m k v` models `m[k] = append(m[k], v)`. -/
def appendA {β : Type} (m : List (GoStr × List β)) (k : GoStr) (v : β) :
    List (GoStr × List β) :=
  insertA m k ((lookupA m k).getD [] ++ [v])

/-- `toValidPkgID`: keep letters, `_-./` everywhere and digits after the
first character; replace everything else by `_`. -/
def validPkgIDMapChar (isFirst : Bool) (c : Char) : Char :=
  if (!isFirst && isDigitChar c) ||
      (decide ('a' ≤ c) && decide (c ≤ 'z')) ||
      (decide ('A' ≤ c) && decide (c ≤ 'Z')) ||
      decide (c = '_') || decide (c = '-') || decide (c = '.') || decide (c = '/') then
    c
  else '_'

def toValidPkgID (s : GoStr) : GoStr :=
  match s with
  | [] => []
  | c :: rest => validPkgIDMapChar true c :: rest.map (validPkgIDMapChar false)

/-- `URIPath.URL` lifted to character strings. -/
def uriPathToURLStr (s : GoStr) : GoStr :=
  (uriPathToURL (s.map Char.toNat)).map Char.ofNat

/-- `PackageEntry.buildIDSegments`: the `/`-separated segments of the
sanitized path (for local entries) or decoded URL (for remote entries).
On the modelled platform `filepath.ToSlash` is the identity. -/
def PackageEntry.buildIDSegments (pe : PackageEntry) : List GoStr :=
  if pe.path ≠ [] then splitOnSep '/' (toValidPkgID pe.path)
  else splitOnSep '/' (toValidPkgID (uriPathToURLStr pe.url))

/-- State after the first pass of `optimizePkgIDs` over the packages. -/
structure OptPhase0 where
  differentVersionOf : List (GoStr × List GoStr) := []
  pkgURLs : List (GoStr × GoStr) := []
  allSegments : List (GoStr × List GoStr) := []

/-- One step of the first pass. Note: as in the source, the value read
before extending `differentVersionOf[seen]` is `differentVersionOf[oldID]`
(the entry of the *new* id, which is always absent), so for three or more
entries sharing a URL only the last duplicate is retained. -/
def optPhase0Step (st : OptPhase0) (e : GoStr × PackageEntry) : OptPhase0 :=
  let oldID := e.1
  let entry := e.2
  if entry.path ≠ [] then
    { st with allSegments := st.allSegments ++ [(oldID, entry.buildIDSegments)] }
  else
    let url := uriPathToURLStr entry.url
    match lookupA st.pkgURLs url with
    | some seen =>
      let versionsOfSeen := (lookupA st.differentVersionOf oldID).getD []
      { st with differentVersionOf :=
          insertA st.differentVersionOf seen (versionsOfSeen ++ [oldID]) }
    | none =>
      { st with
          allSegments := st.allSegments ++ [(oldID, entry.buildIDSegments)],
          pkgURLs := st.pkgURLs ++ [(url, oldID)] }

def optPhase0 (pkgs : List (GoStr × PackageEntry)) : OptPhase0 :=
  pkgs.foldl optPhase0Step {}

/-- The candidate map of one iteration: the last `i` segments of every
pending package, grouped. -/
def candidatesFor (i : Nat) (allSegments : List (GoStr × List GoStr)) :
    List (GoStr × List GoStr) :=
  allSegments.foldl (fun cands e =>
    let segments := e.2
    let l := segments.length
    let candidate :=
      if i ≤ l then joinStrs "/".data (segments.drop (l - i))
      else joinStrs "/".data segments
    appendA cands candidate e.1) []

structure OptPhase1 where
  allSegments : List (GoStr × List GoStr)
  newIDs : List (GoStr × List GoStr) := []

/-- Resolution of one candidate group: promote ids that are unique or out
of segments, adding `-<version>` suffixes to groups that exist in several
versions. -/
def resolveCandidate (pkgs : List (GoStr × PackageEntry))
    (differentVersionOf : List (GoStr × List GoStr)) (i : Nat)
    (st : OptPhase1) (cand : GoStr × List GoStr) : OptPhase1 :=
  let candidate := cand.1
  let oldIDs := cand.2
  let isSingle := oldIDs.length = 1
  oldIDs.foldl (fun st oldID =>
    let segments := (lookupA st.allSegments oldID).getD []
    if isSingle ∨ i ≥ segments.length then
      match lookupA differentVersionOf oldID with
      | some differentVersions =>
        let allIDs := differentVersions ++ [oldID]
        let st := allIDs.foldl (fun st oid =>
          let lfe := (lookupA pkgs oid).getD {}
          let newID := candidate ++ "-".data ++ lfe.version
          { st with newIDs := appendA st.newIDs newID oid }) st
        { st with allSegments := eraseKey st.allSegments oldID }
      | none =>
        { st with
            newIDs := appendA st.newIDs candidate oldID,
            allSegments := eraseKey st.allSegments oldID }
    else st) st

def optPhase1Iter (pkgs : List (GoStr × PackageEntry))
    (differentVersionOf : List (GoStr × List GoStr)) (i : Nat)
    (st : OptPhase1) : OptPhase1 :=
  (candidatesFor i st.allSegments).foldl (resolveCandidate pkgs differentVersionOf i) st

/-- The `for i := 1; len(allSegments) != 0; i++` loop, with fuel. -/
def optPhase1Loop (pkgs : List (GoStr × PackageEntry))
    (differentVersionOf : List (GoStr × List GoStr)) :
    Nat → Nat → OptPhase1 → OptPhase1
  | 0, _, st => st
  | fuel + 1, i, st =>
    if st.allSegments = [] then st
    else optPhase1Loop pkgs differentVersionOf fuel (i + 1)
      (optPhase1Iter pkgs differentVersionOf i st)

/-- Find the first free `--<counter>` suffix (with fuel; on exhaustion the
last candidate is taken). Returns the chosen id and the next counter. -/
def findFreeCounter (finalIDs : List (GoStr × GoStr)) (newID : GoStr) :
    Nat → Nat → GoStr × Nat
  | 0, counter => (newID ++ "--".data ++ (toString counter).data, counter + 1)
  | fuel + 1, counter =>
    let candidate := newID ++ "--".data ++ (toString counter).data
    if (lookupA finalIDs candidate).isSome then
      findFreeCounter finalIDs newID fuel (counter + 1)
    else (candidate, counter + 1)

/-- The uniqueness pass: unique new ids first, then `--<counter>`
disambiguation. Returns `(finalIDs, old2New)`. -/
def optPhase2 (fuel : Nat) (newIDs : List (GoStr × List GoStr)) :
    List (GoStr × GoStr) × List (GoStr × GoStr) :=
  let unique : List (GoStr × GoStr) × List (GoStr × GoStr) :=
    newIDs.foldl (fun st e =>
      if e.2.length = 1 then
        (insertA st.1 e.1 (e.2.headD []), insertA st.2 (e.2.headD []) e.1)
      else st) ([], [])
  newIDs.foldl (fun st e =>
    if e.2.length = 1 then st
    else
      let res : List (GoStr × GoStr) × List (GoStr × GoStr) × Nat :=
        e.2.foldl (fun acc oldID =>
          let found := findFreeCounter acc.1 e.1 fuel acc.2.2
          (insertA acc.1 found.1 oldID, insertA acc.2.1 oldID found.1, found.2))
          (st.1, st.2, 0)
      (res.1, res.2.1)) unique

/-- `LockFile.optimizePkgIDs`: compute minimal distinct ids and rename;
abort (returning the input unchanged) if any referenced id is unmapped. -/
def LockFile.optimizePkgIDs (fuel : Nat) (lf : LockFile) : LockFile :=
  let ph0 := optPhase0 lf.packages
  let ph1 := optPhase1Loop lf.packages ph0.differentVersionOf fuel 1
    { allSegments := ph0.allSegments }
  let ph2 := optPhase2 fuel ph1.newIDs
  let old2New := ph2.2
  let referenced := lf.prefixes.map Prod.snd
    ++ lf.packages.flatMap (fun e => e.2.prefixes.map Prod.snd)
  if referenced.any (fun oid => (lookupA old2New oid).isNone) then lf
  else
    let buildNewPrefixes := fun (prefixes : PrefixMap) =>
      prefixes.map (fun p => (p.1, (lookupA old2New p.2).getD []))
    { lf with
        prefixes := buildNewPrefixes lf.prefixes,
        packages := lf.packages.foldl (fun acc e =>
          insertA acc ((lookupA old2New e.1).getD [])
            { e.2 with prefixes := buildNewPrefixes e.2.prefixes }) [] }

/-- The failing input for the optimizer: three remote entries sharing one
URL in three versions, referenced by no prefix. -/
def threeVersionLock : LockFile :=
  { packages :=
      [("pkg0".data, { url := "u".data, version := "1.0.0".data }),
       ("pkg1".data, { url := "u".data, version := "2.0.0".data }),
       ("pkg2".data, { url := "u".data, version := "3.0.0".data })] }

/-- C8 (code bug): optimizing a lock file with three same-URL entries loses
the middle entry: it is neither under its working id nor under the
`u-2.0.0` suffix id required by the claim, but under the empty id, because
the first pass reads `differentVersionOf[oldID]` where the surrounding code
means `differentVersionOf[seen]` and so forgets all but the last duplicate. -/
theorem optimizePkgIDs_three_versions :
    lookupA (threeVersionLock.optimizePkgIDs 10).packages "u-1.0.0".data =
      some { url := "u".data, version := "1.0.0".data }
    ∧ lookupA (threeVersionLock.optimizePkgIDs 10).packages "u-3.0.0".data =
      some { url := "u".data, version := "3.0.0".data }
    ∧ lookupA (threeVersionLock.optimizePkgIDs 10).packages "u-2.0.0".data = none
    ∧ lookupA (threeVersionLock.optimizePkgIDs 10).packages "pkg1".data = none
    ∧ lookupA (threeVersionLock.optimizePkgIDs 10).packages [] =
      some { url := "u".data, version := "2.0.0".data } := by
  decide

/-! ## Uninstall -/

/-- `ProjectPkgManager.Uninstall` after the spec and lock have been read:
if the prefix is not declared, report an informational message and succeed
without writing anything; otherwise remove the dependency, re-solve (the
solve-and-download collaborator is a parameter) and rewrite spec and lock.
The first component of the result is the write plan (`none` = no file
touched). -/
def uninstall (name : GoStr) (spec : Spec) (lf : Option LockFile)
    (solveAndDownload : Spec → Option LockFile → Except GoStr LockFile) :
    Except GoStr (Option (Spec × LockFile)) × List GoStr :=
  if (lookupA spec.deps name).isNone then
    (.ok none, ["Package '".data ++ name ++ "' does not exist".data])
  else
    let spec' : Spec := { spec with deps := eraseKey spec.deps name }
    match solveAndDownload spec' lf with
    | .error e => (.error e, [])
    | .ok lock' => (.ok (some (spec', lock')), [])

/-- C10: uninstalling a prefix that is not among the spec's dependencies
succeeds, writes neither spec nor lock, reports exactly one informational
message, and never invokes the re-resolve path (the result is the same for
every solve-and-download collaborator). -/
theorem uninstall_missing_prefix (name : GoStr) (spec : Spec) (lf : Option LockFile)
    (h : lookupA spec.deps name = none) :
    ∀ solveAndDownload,
      uninstall name spec lf solveAndDownload =
        (.ok none, ["Package '".data ++ name ++ "' does not exist".data]) := by
  intro solveAndDownload
  unfold uninstall
  rw [h]
  simp

/-- C10 (witness): uninstalling the undeclared prefix `b` from a spec that
declares only `a`, with a solve collaborator that would fail loudly if it
were ever invoked. -/
theorem uninstall_missing_prefix_witness :
    uninstall "b".data { deps := [("a".data, { url := "u".data })] } none
        (fun _ _ => .error "must not run".data) =
      (.ok none, ["Package '".data ++ "b".data ++ "' does not exist".data]) :=
  uninstall_missing_prefix "b".data { deps := [("a".data, { url := "u".data })] }
    none (by decide) (fun _ _ => .error "must not run".data)

instance : DecidableEq (Except GoStr Unit) := fun a b =>
  match a, b with
  | .error x, .error y =>
    if h : x = y then isTrue (by rw [h])
    else isFalse (fun hh => h (Except.error.inj hh))
  | .ok x, .ok y => isTrue (by cases x; cases y; rfl)
  | .error _, .ok _ => isFalse (fun hh => Except.noConfusion hh)
  | .ok _, .error _ => isFalse (fun hh => Except.noConfusion hh)

/-- The claim's acceptance condition for a `PackageEntry`. -/
def claimEntryRule (pe : PackageEntry) : Prop :=
  (Xor' (pe.url ≠ []) (pe.path ≠ [])) ∧ (pe.url ≠ [] → pe.version ≠ [])

instance (pe : PackageEntry) : Decidable (claimEntryRule pe) := by
  unfold claimEntryRule Xor'
  infer_instance

/-- C7 (counterexample): the entry with `url`, `version` and `path` all set
passes validation although the claim requires exactly one of `url`/`path`. -/
theorem packageEntry_validate_counterexample :
    ¬ (({ url := "u".data, version := "1.0.0".data, path := "p".data } :
        PackageEntry).validate = .ok () ↔
      claimEntryRule { url := "u".data, version := "1.0.0".data, path := "p".data }) := by
  decide

/-- C7 (amended): validation succeeds exactly on entries in which at least one
of url and path is present and in which a non-empty url is accompanied by a
non-empty version; exclusivity of url and path is not enforced. -/
theorem packageEntry_validate_iff (pe : PackageEntry) :
    pe.validate = .ok () ↔
      ((pe.url ≠ [] ∨ pe.path ≠ []) ∧ (pe.url ≠ [] → pe.version ≠ [])) := by
  unfold PackageEntry.validate
  by_cases h1 : pe.url ≠ [] ∧ pe.version = []
  · simp only [if_pos h1]
    constructor
    · intro h
      exact absurd h (by simp)
    · intro h
      exact absurd (h.2 h1.1) (by simp [h1.2])
  · simp only [if_neg h1]
    by_cases h2 : pe.url = [] ∧ pe.path = []
    · simp only [if_pos h2]
      constructor
      · intro h
        exact absurd h (by simp)
      · intro h
        rcases h.1 with hu | hp
        · exact absurd h2.1 hu
        · exact absurd h2.2 hp
    · simp only [if_neg h2]
      constructor
      · intro _
        push_neg at h1 h2
        constructor
        · by_cases hu : pe.url = []
          · exact Or.inr (h2 hu)
          · exact Or.inl hu
        · exact h1
      · intro _
        trivial

/-! ## The dependency resolver (solver.go)

The Go solver is a struct mutating its state; the model separates the
immutable environment (database, ambient SDK) from the warning log and the
search state, and threads them explicitly. The three Go stacks push and
pop at the slice end; the model pushes and pops at the list head, which is
the same stack discipline. The main loop is given fuel. -/

/-- `SolverDep`: a url together with parsed constraints. -/
structure SolverDep where
  url : GoStr
  constraints : Constraints
deriving DecidableEq, Repr

/-- `solverPkg`: one candidate version of a package in the database. -/
structure SolverPkg where
  version : GoVersion
  deps : List SolverDep
  minSDK : Option GoVersion
deriving DecidableEq, Repr

/-- `pkgDB`: url to candidate list, newest first after `NewSolver`. -/
abbrev PkgDB := List (GoStr × List SolverPkg)

/-- The immutable part of the `Solver` struct. -/
structure SolverEnv where
  db : PkgDB
  sdkVersion : Option GoVersion
deriving Repr

/-- The warning sink together with the `printedErrors` dedup set. -/
structure WarnLog where
  printedErrors : List GoStr := []
  warnings : List GoStr := []
deriving DecidableEq, Repr

/-- `undoInfo`. -/
structure UndoInfo where
  workingQueueLen : Nat := 0
  urlVersion : GoStr := []
  minSDK : Option GoVersion := none
deriving DecidableEq, Repr

/-- `solverState`. The partial solution maps the `url-<major>` key to the
chosen candidate's index in its url's candidate list (standing in for the
version pointer compared by the source) and its version. -/
structure SolverState where
  pkgs : List (GoStr × Nat × GoVersion) := []
  minSDK : Option GoVersion := none
  workingQueue : List SolverDep := []
  continuations : List Nat := []
  undos : List UndoInfo := []
deriving DecidableEq, Repr

/-- A `Solution`: url to the selected `(rendered version, version)` pairs,
plus the effective minimum SDK. -/
structure Solution where
  pkgs : List (GoStr × List (GoStr × GoVersion)) := []
  minSDK : Option GoVersion := none
deriving DecidableEq, Repr

/-- One registry description as consumed by `NewSolver`. -/
structure DescEntry where
  url : GoStr
  version : GoVersion
  deps : List SolverDep
  minSDK : Option GoVersion
deriving DecidableEq, Repr

/-- Decimal digits, with structural fuel (the first argument; `fuel ≥ n`
always suffices). -/
def natDigitsCore : Nat → Nat → GoStr → GoStr
  | 0, n, acc => Char.ofNat (48 + n % 10) :: acc
  | fuel + 1, n, acc =>
    if n < 10 then Char.ofNat (48 + n) :: acc
    else natDigitsCore fuel (n / 10) (Char.ofNat (48 + n % 10) :: acc)

/-- Decimal digits of a natural number (`fmt.Sprint` on a non-negative
int). -/
def natDigits (n : Nat) : GoStr := natDigitsCore n n []

/-- `Version.String()`: the zero-padded segments joined with dots, then
`-pre` and `+metadata`. -/
def GoVersion.render (v : GoVersion) : GoStr :=
  joinStrs ".".data (v.segments.map natDigits)
    ++ (if v.pre = [] then [] else '-' :: v.pre)
    ++ (if v.meta = [] then [] else '+' :: v.meta)

def renderOptVersion : Option GoVersion → GoStr
  | some v => v.render
  | none => "<nil>".data

/-- Rendering of constraints for warning messages (`Constraints.String()`;
the exact text only feeds the dedup set). -/
def renderConstraints (cs : Constraints) : GoStr :=
  joinStrs ",".data (cs.map (fun t =>
    (match t.1 with
     | .eq => "=".data
     | .ne => "!=".data
     | .lt => "<".data
     | .le => "<=".data
     | .gt => ">".data
     | .ge => ">=".data) ++ t.2.render))

/-- `ReportWarning` behind the `printedErrors` dedup check. -/
def emitWarn (w : WarnLog) (msg : GoStr) : WarnLog :=
  if msg ∈ w.printedErrors then w
  else { printedErrors := msg :: w.printedErrors, warnings := w.warnings ++ [msg] }

/-- The candidate SDK gate:
`s.sdkVersion != nil && candidate.minSDK != nil && s.sdkVersion.LessThan(minSDK)`. -/
def sdkTooSmall (env : SolverEnv) (cand : SolverPkg) : Bool :=
  match env.sdkVersion, cand.minSDK with
  | some sdk, some m => decide (sdk.key < m.key)
  | _, _ => false

/-- The minimum-SDK update on a fresh commit. -/
def goUpdateMin (cur cand : Option GoVersion) : Option GoVersion :=
  match cur with
  | none => cand
  | some m =>
    match cand with
    | none => some m
    | some c => if m.key < c.key then some c else some m

/-- The warning at candidate exhaustion in `solveDep`. -/
def noSatMsg (env : SolverEnv) (dep : SolverDep) (sdkMismatch : Bool) : GoStr :=
  if renderConstraints dep.constraints ≠ [] then
    "No version of '".data ++ dep.url ++ "' satisfies constraint '".data
      ++ renderConstraints dep.constraints ++ "'".data
      ++ (if sdkMismatch then " with SDK version ".data ++ renderOptVersion env.sdkVersion
          else [])
  else
    "No version of '".data ++ dep.url ++ "' exists for SDK version '".data
      ++ renderOptVersion env.sdkVersion ++ "'".data

/-- The candidate loop of `solveDep`, starting at the continuation index,
with a structural counter `rem` for the remaining candidates (the caller
passes `available.length - index`). Returns the updated log and state, the
success flag, the next continuation index and the undo record. -/
def solveDepLoop (env : SolverEnv) (dep : SolverDep) (available : List SolverPkg)
    (w : WarnLog) (st : SolverState) :
    Nat → Nat → Bool → Bool → WarnLog × SolverState × Bool × Nat × UndoInfo
  | 0, _, foundSatisfying, sdkMismatch =>
    let w' := if foundSatisfying then w else emitWarn w (noSatMsg env dep sdkMismatch)
    (w', st, false, 0, {})
  | rem + 1, index, foundSatisfying, sdkMismatch =>
    if h : index < available.length then
      let candidate := available.get ⟨index, h⟩
      if ¬ checkConstraints dep.constraints candidate.version then
        solveDepLoop env dep available w st rem (index + 1) foundSatisfying sdkMismatch
      else if sdkTooSmall env candidate then
        solveDepLoop env dep available w st rem (index + 1) foundSatisfying true
      else
        let urlVersion := dep.url ++ '-' :: natDigits candidate.version.major
        match lookupA st.pkgs urlVersion with
        | some existing =>
          if existing.1 ≠ index then
            solveDepLoop env dep available w st rem (index + 1) true sdkMismatch
          else
            (w, st, true, index + 1,
              { minSDK := st.minSDK, workingQueueLen := st.workingQueue.length,
                urlVersion := [] })
        | none =>
          let undo : UndoInfo :=
            { minSDK := st.minSDK, workingQueueLen := st.workingQueue.length,
              urlVersion := urlVersion }
          (w,
           { st with
              minSDK := goUpdateMin st.minSDK candidate.minSDK,
              pkgs := (urlVersion, index, candidate.version) :: st.pkgs,
              workingQueue := st.workingQueue ++ candidate.deps },
           true, index + 1, undo)
    else
      let w' := if foundSatisfying then w else emitWarn w (noSatMsg env dep sdkMismatch)
      (w', st, false, 0, {})

/-- `Solver.solveDep`. -/
def solveDep (env : SolverEnv) (w : WarnLog) (st : SolverState)
    (dep : SolverDep) (cont : Nat) : WarnLog × SolverState × Bool × Nat × UndoInfo :=
  match lookupA env.db dep.url with
  | none =>
    (emitWarn w ("Package '".data ++ dep.url ++ "' not found".data), st, false, 0, {})
  | some available =>
    solveDepLoop env dep available w st (available.length - cont) cont (cont ≠ 0) false

/-- `Solver.applyUndo`. -/
def applyUndo (st : SolverState) (undo : UndoInfo) : SolverState :=
  let st :=
    if undo.workingQueueLen ≠ 0 then
      { st with workingQueue := st.workingQueue.take undo.workingQueueLen }
    else st
  let st :=
    if undo.urlVersion ≠ [] then { st with pkgs := eraseKey st.pkgs undo.urlVersion }
    else st
  { st with minSDK := undo.minSDK }

/-- `urlMajor[:strings.LastIndex(urlMajor, "-")]`. -/
def goTakeToLastDash (s : GoStr) : GoStr :=
  s.take (s.length - 1 - s.reverse.findIdx (fun c => decide (c = '-')))

/-- `solverState.Solution()`: group the committed versions by url. -/
def solutionOf (st : SolverState) : Solution :=
  { pkgs := st.pkgs.foldl (fun acc e =>
      appendA acc (goTakeToLastDash e.1) (e.2.2.render, e.2.2)) [],
    minSDK := st.minSDK }

/-- The main loop of `Solver.Solve`, with fuel (`none` = fuel exhausted;
`some none` = unsolvable; `some (some sol)` = success). -/
def solveLoop (env : SolverEnv) :
    Nat → WarnLog → SolverState → Int → WarnLog × Option (Option Solution)
  | 0, w, _, _ => (w, none)
  | fuel + 1, w, st, workingIndex =>
    if workingIndex ≥ (st.workingQueue.length : Int) then
      (w, some (some (solutionOf st)))
    else if workingIndex < 0 then
      (w, some none)
    else
      let wi := workingIndex.toNat
      let entry := st.workingQueue.getD wi { url := [], constraints := [] }
      let popped := st.continuations.length = wi + 1
      let cont := if popped then st.continuations.headD 0 else 0
      let st1 := if popped then { st with continuations := st.continuations.tail } else st
      let r := solveDep env w st1 entry cont
      let w' := r.1
      let st2 := r.2.1
      let success := r.2.2.1
      let cont' := r.2.2.2.1
      let undo := r.2.2.2.2
      if success then
        solveLoop env fuel w'
          { st2 with continuations := cont' :: st2.continuations,
                     undos := undo :: st2.undos }
          (workingIndex + 1)
      else
        match st2.undos with
        | [] => solveLoop env fuel w' st2 (workingIndex - 1)
        | u :: us =>
          solveLoop env fuel w' (applyUndo { st2 with undos := us } u)
            (workingIndex - 1)

/-- `Solver.Solve`: check the project minimum SDK against the ambient SDK
(warning without dedup, then unsolvable), then run the loop on a fresh
state seeded with the root dependencies. -/
def solve (env : SolverEnv) (fuel : Nat) (minSDK : Option GoVersion)
    (deps : List SolverDep) : WarnLog × Option (Option Solution) :=
  let start : WarnLog := {}
  let guard :=
    match env.sdkVersion, minSDK with
    | some sdk, some m => decide (sdk.key < m.key)
    | _, _ => false
  if guard then
    ({ start with warnings := start.warnings ++
        ["SDK version '".data ++ renderOptVersion env.sdkVersion
          ++ "' does not satisfy the minimal SDK requirement '^".data
          ++ renderOptVersion minSDK ++ "'".data] },
     some none)
  else
    solveLoop env fuel start
      { pkgs := [], minSDK := minSDK, workingQueue := deps,
        continuations := [], undos := [] } 0

/-- Ascending insertion sort by version (`sort.Sort(byVersion(pkgs))`). -/
def insertByVersion (p : SolverPkg) : List SolverPkg → List SolverPkg
  | [] => [p]
  | q :: rest =>
    if p.version.lessThan q.version then p :: q :: rest
    else q :: insertByVersion p rest

def sortByVersion (l : List SolverPkg) : List SolverPkg :=
  l.foldr insertByVersion []

/-- `NewSolver`: build the database from the registry descriptions, sort
each url's candidates ascending and reverse to get newest first. -/
def NewSolver (entries : List DescEntry) (sdkVersion : Option GoVersion) : SolverEnv :=
  { db := (entries.foldl (fun db d =>
      insertA db d.url ((lookupA db d.url).getD []
        ++ [{ version := d.version, deps := d.deps, minSDK := d.minSDK }])) []).map
      (fun e => (e.1, (sortByVersion e.2).reverse)),
    sdkVersion := sdkVersion }

/-- Membership of a version in a solution's bucket for a url. -/
def selectedIn (sol : Solution) (url : GoStr) (v : GoVersion) : Prop :=
  ∃ p ∈ (lookupA sol.pkgs url).getD [], p.2 = v

example :
    (solve (NewSolver
        [⟨"b".data, { given := [3,0,0] }, [⟨"c".data, []⟩], none⟩,
         ⟨"b".data, { given := [2,0,0] }, [], none⟩] none)
      20 none [⟨"b".data, []⟩]).2 =
    some (some { pkgs := [("b".data, [(("2.0.0".data), { given := [2,0,0] })])] }) := by
  decide

/-! ### C1: the highest-compatible rule -/

/-- The version constraints placed on a url anywhere in a solver problem:
by the root dependencies and by any candidate's dependencies. -/
def activeConstraintsOn (entries : List DescEntry) (rootDeps : List SolverDep)
    (url : GoStr) : List Constraints :=
  (rootDeps.filter (fun d => decide (d.url = url))).map (fun d => d.constraints)
    ++ entries.flatMap (fun e =>
        (e.deps.filter (fun d => decide (d.url = url))).map (fun d => d.constraints))

/-- The maximum version in the database for a url that satisfies all the
given constraints and whose minimum SDK does not exceed the ambient SDK. -/
def maxSatisfying (env : SolverEnv) (url : GoStr) (css : List Constraints) :
    Option GoVersion :=
  ((lookupA env.db url).getD []).foldl (fun acc cand =>
    if css.all (fun cs => checkConstraints cs cand.version) && !sdkTooSmall env cand then
      match acc with
      | none => some cand.version
      | some m => if m.key < cand.version.key then some cand.version else some m
    else acc) none

/-- The claim under test: every version a successful solve selects is the
maximum database version satisfying every active constraint on its url
(and the ambient SDK). -/
def highestCompatibleClaim (entries : List DescEntry) (sdk : Option GoVersion)
    (fuel : Nat) (minSDK : Option GoVersion) (rootDeps : List SolverDep) : Prop :=
  ∀ sol, (solve (NewSolver entries sdk) fuel minSDK rootDeps).2 = some (some sol) →
    ∀ url v, selectedIn sol url v →
      maxSatisfying (NewSolver entries sdk) url
        (activeConstraintsOn entries rootDeps url) = some v

/-- The database refuting the claim: `b` in versions 3.0.0 (depending on a
package `c` that no registry provides) and 2.0.0 (no dependencies). -/
def exEntriesC1 : List DescEntry :=
  [⟨"b".data, { given := [3, 0, 0] }, [⟨"c".data, []⟩], none⟩,
   ⟨"b".data, { given := [2, 0, 0] }, [], none⟩]

def exDepsC1 : List SolverDep := [⟨"b".data, []⟩]

/-- C1 (counterexample): solving for `b` with no constraint succeeds with
`b = 2.0.0` after backtracking out of 3.0.0 (whose dependency `c` is
unsolvable), although 3.0.0 is the maximum database version satisfying
every active constraint on `b`; so the claim is false at this input. -/
theorem solve_not_highest_compatible :
    ¬ highestCompatibleClaim exEntriesC1 none 20 none exDepsC1 := by
  intro hclaim
  have hsel : selectedIn
      { pkgs := [("b".data, [("2.0.0".data, { given := [2, 0, 0] })])] }
      "b".data { given := [2, 0, 0] } :=
    ⟨("2.0.0".data, { given := [2, 0, 0] }), by decide, rfl⟩
  have hsol := hclaim
    { pkgs := [("b".data, [("2.0.0".data, { given := [2, 0, 0] })])] }
    (by decide) "b".data { given := [2, 0, 0] } hsel
  have hmax : maxSatisfying (NewSolver exEntriesC1 none) "b".data
      (activeConstraintsOn exEntriesC1 exDepsC1 "b".data) =
      some { given := [3, 0, 0] } := by decide
  rw [hmax] at hsol
  have : ({ given := [3, 0, 0] } : GoVersion) = { given := [2, 0, 0] } :=
    Option.some.inj hsol
  exact absurd this (by decide)

/-! ### C5: warning deduplication -/

/-- Well-formedness of the warning log: the emitted messages are pairwise
distinct and all recorded in the dedup set. -/
def WarnWF (w : WarnLog) : Prop :=
  w.warnings.Nodup ∧ ∀ m ∈ w.warnings, m ∈ w.printedErrors

theorem emitWarn_wf {w : WarnLog} (h : WarnWF w) (msg : GoStr) :
    WarnWF (emitWarn w msg) := by
  unfold emitWarn
  by_cases hmem : msg ∈ w.printedErrors
  · rw [if_pos hmem]
    exact h
  · rw [if_neg hmem]
    constructor
    · rw [List.nodup_append]
      refine ⟨h.1, List.nodup_singleton msg, ?_⟩
      intro m hm
      simp only [List.mem_singleton]
      intro heq
      subst heq
      exact hmem (h.2 m hm)
    · intro m hm
      rcases List.mem_append.mp hm with h1 | h1
      · exact List.mem_cons_of_mem _ (h.2 m h1)
      · simp at h1
        subst h1
        exact List.mem_cons_self _ _

theorem solveDepLoop_wf (env : SolverEnv) (dep : SolverDep)
    (available : List SolverPkg) (w : WarnLog) (st : SolverState)
    (rem index : Nat) (f m : Bool) (h : WarnWF w) :
    WarnWF (solveDepLoop env dep available w st rem index f m).1 := by
  induction rem generalizing index f m with
  | zero =>
    unfold solveDepLoop
    split
    · exact h
    · exact emitWarn_wf h _
  | succ rem ih =>
    unfold solveDepLoop
    by_cases hidx : index < available.length
    · rw [dif_pos hidx]
      dsimp only
      split
      · exact ih (index + 1) f m
      · split
        · exact ih (index + 1) f true
        · split
          · split
            · exact ih (index + 1) true m
            · exact h
          · exact h
    · rw [dif_neg hidx]
      split
      · exact h
      · exact emitWarn_wf h _

theorem solveDep_wf (env : SolverEnv) (w : WarnLog) (st : SolverState)
    (dep : SolverDep) (cont : Nat) (h : WarnWF w) :
    WarnWF (solveDep env w st dep cont).1 := by
  unfold solveDep
  split
  · exact emitWarn_wf h _
  · exact solveDepLoop_wf _ _ _ _ _ _ _ _ _ h

theorem solveLoop_wf (env : SolverEnv) (fuel : Nat) (w : WarnLog)
    (st : SolverState) (wi : Int) (h : WarnWF w) :
    WarnWF (solveLoop env fuel w st wi).1 := by
  induction fuel generalizing w st wi with
  | zero => exact h
  | succ fuel ih =>
    unfold solveLoop
    split
    · exact h
    · split
      · exact h
      · dsimp only
        repeat' split
        all_goals exact ih _ _ _ (solveDep_wf env w _ _ _ h)

/-- C5: over an entire solve, the emitted warning messages are pairwise
distinct — each distinct message is reported at most once, whether the
solve succeeds, fails or runs out of fuel. -/
theorem solve_warnings_dedup (env : SolverEnv) (fuel : Nat)
    (minSDK : Option GoVersion) (deps : List SolverDep) :
    (solve env fuel minSDK deps).1.warnings.Nodup := by
  unfold solve
  dsimp only
  split
  · simp
  · exact (solveLoop_wf env fuel {} _ 0 ⟨List.nodup_nil, by simp⟩).1

/-! ### Association-list, digit and key lemmas for the solver invariants -/

theorem lookupA_cons {β : Type} (k' : GoStr) (v' : β) (m : List (GoStr × β))
    (k : GoStr) :
    lookupA ((k', v') :: m) k = if k' = k then some v' else lookupA m k := by
  unfold lookupA
  by_cases h : k' = k
  · rw [List.find?_cons_of_pos _ (by simp [h]), if_pos h]
    rfl
  · rw [List.find?_cons_of_neg _ (by simp [h]), if_neg h]

theorem lookupA_none_not_mem_keys {β : Type} {m : List (GoStr × β)} {k : GoStr}
    (h : lookupA m k = none) : k ∉ m.map Prod.fst := by
  induction m with
  | nil => simp
  | cons e m' ih =>
    rw [show e = (e.1, e.2) from rfl, lookupA_cons] at h
    by_cases he : e.1 = k
    · rw [if_pos he] at h
      exact absurd h (by simp)
    · rw [if_neg he] at h
      simp only [List.map_cons, List.mem_cons]
      intro hc
      rcases hc with hc | hc
      · exact he hc.symm
      · exact ih h hc

theorem eraseKey_of_lookupA_none {β : Type} {m : List (GoStr × β)} {k : GoStr}
    (h : lookupA m k = none) : eraseKey m k = m := by
  induction m with
  | nil => rfl
  | cons e m' ih =>
    rw [show e = (e.1, e.2) from rfl, lookupA_cons] at h
    by_cases he : e.1 = k
    · rw [if_pos he] at h
      exact absurd h (by simp)
    · rw [if_neg he] at h
      unfold eraseKey at ih ⊢
      simp only [List.filter_cons]
      rw [if_pos (by simpa using he)]
      rw [ih h]

theorem keys_nodup_mem_unique {β : Type} {m : List (GoStr × β)} {k : GoStr}
    {a b : β} (hnd : (m.map Prod.fst).Nodup)
    (ha : (k, a) ∈ m) (hb : (k, b) ∈ m) : a = b := by
  induction m with
  | nil => simp at ha
  | cons e m' ih =>
    simp only [List.map_cons, List.nodup_cons] at hnd
    rcases List.mem_cons.mp ha with h1 | h1 <;> rcases List.mem_cons.mp hb with h2 | h2
    · rw [← h1] at h2
      exact (Prod.mk.injEq _ _ _ _ ▸ h2).2.symm
    · exfalso
      apply hnd.1
      have hmem : Prod.fst (k, b) ∈ m'.map Prod.fst := List.mem_map_of_mem _ h2
      rw [← h1]
      exact hmem
    · exfalso
      apply hnd.1
      have hmem : Prod.fst (k, a) ∈ m'.map Prod.fst := List.mem_map_of_mem _ h1
      rw [← h2]
      exact hmem
    · exact ih hnd.2 h1 h2

theorem lookupA_append {β : Type} (m1 m2 : List (GoStr × β)) (u : GoStr) :
    lookupA (m1 ++ m2) u = (lookupA m1 u).or (lookupA m2 u) := by
  induction m1 with
  | nil => simp [lookupA]
  | cons e m' ih =>
    rw [show e = (e.1, e.2) from rfl, List.cons_append, lookupA_cons, lookupA_cons]
    by_cases he : e.1 = u
    · rw [if_pos he, if_pos he]
      rfl
    · rw [if_neg he, if_neg he, ih]

theorem lookupA_map_replace_ne {β : Type} (m : List (GoStr × β)) (k : GoStr)
    (v : β) (u : GoStr) (hu : ¬ u = k) :
    lookupA (m.map (fun e => if e.1 = k then (k, v) else e)) u = lookupA m u := by
  induction m with
  | nil => rfl
  | cons e m' ih =>
    simp only [List.map_cons]
    by_cases he : e.1 = k
    · rw [if_pos he, lookupA_cons, if_neg (fun hh => hu hh.symm),
        show e = (e.1, e.2) from rfl, lookupA_cons, if_neg (he ▸ fun hh => hu hh.symm)]
      exact ih
    · rw [if_neg he, show e = (e.1, e.2) from rfl, lookupA_cons, lookupA_cons]
      by_cases heu : e.1 = u
      · rw [if_pos heu, if_pos heu]
      · rw [if_neg heu, if_neg heu]
        exact ih

theorem lookupA_map_replace_eq {β : Type} (m : List (GoStr × β)) (k : GoStr)
    (v : β) (hs : (lookupA m k).isSome) :
    lookupA (m.map (fun e => if e.1 = k then (k, v) else e)) k = some v := by
  induction m with
  | nil => simp [lookupA] at hs
  | cons e m' ih =>
    rw [show e = (e.1, e.2) from rfl, lookupA_cons] at hs
    simp only [List.map_cons]
    by_cases he : e.1 = k
    · rw [if_pos he, lookupA_cons, if_pos rfl]
    · rw [if_neg he] at hs ⊢
      rw [show e = (e.1, e.2) from rfl, lookupA_cons, if_neg he]
      exact ih hs

theorem lookupA_insertA {β : Type} (m : List (GoStr × β)) (k : GoStr) (v : β)
    (u : GoStr) :
    lookupA (insertA m k v) u = if u = k then some v else lookupA m u := by
  unfold insertA
  by_cases hs : (lookupA m k).isSome
  · rw [if_pos hs]
    by_cases hu : u = k
    · subst hu
      rw [if_pos rfl]
      exact lookupA_map_replace_eq m u v hs
    · rw [if_neg hu]
      exact lookupA_map_replace_ne m k v u hu
  · rw [if_neg hs, lookupA_append]
    by_cases hu : u = k
    · subst hu
      rw [if_pos rfl]
      rw [Option.not_isSome_iff_eq_none] at hs
      rw [hs]
      rw [lookupA_cons, if_pos rfl]
      rfl
    · rw [if_neg hu]
      rw [lookupA_cons, if_neg (fun hh => hu hh.symm)]
      simp [lookupA]

theorem natDigitsCore_all_digits (fuel : Nat) :
    ∀ (n : Nat) (acc : GoStr),
      (∀ c ∈ acc, ∃ d, d < 10 ∧ c = Char.ofNat (48 + d)) →
      ∀ c ∈ natDigitsCore fuel n acc, ∃ d, d < 10 ∧ c = Char.ofNat (48 + d) := by
  induction fuel with
  | zero =>
    intro n acc hacc c hc
    unfold natDigitsCore at hc
    rcases List.mem_cons.mp hc with h | h
    · exact ⟨n % 10, Nat.mod_lt _ (by omega), h⟩
    · exact hacc c h
  | succ fuel ih =>
    intro n acc hacc c hc
    unfold natDigitsCore at hc
    by_cases hn : n < 10
    · rw [if_pos hn] at hc
      rcases List.mem_cons.mp hc with h | h
      · exact ⟨n, hn, h⟩
      · exact hacc c h
    · rw [if_neg hn] at hc
      refine ih (n / 10) _ ?_ c hc
      intro c' hc'
      rcases List.mem_cons.mp hc' with h | h
      · exact ⟨n % 10, Nat.mod_lt _ (by omega), h⟩
      · exact hacc c' h

theorem digitChar_ne_dash {d : Nat} (hd : d < 10) : ¬ Char.ofNat (48 + d) = '-' := by
  interval_cases d <;> decide

theorem natDigits_dashfree (n : Nat) : ∀ c ∈ natDigits n, ¬ c = '-' := by
  intro c hc
  obtain ⟨d, hd, rfl⟩ := natDigitsCore_all_digits n n [] (by simp) c hc
  exact digitChar_ne_dash hd

theorem natDigitsCore_ne_nil (fuel n : Nat) (acc : GoStr) :
    natDigitsCore fuel n acc ≠ [] := by
  induction fuel generalizing n acc with
  | zero => simp [natDigitsCore]
  | succ fuel ih =>
    unfold natDigitsCore
    split
    · simp
    · exact ih _ _

theorem natDigits_ne_nil (n : Nat) : natDigits n ≠ [] := natDigitsCore_ne_nil n n []

theorem firstDash_unique :
    ∀ (a1 a2 b1 b2 : GoStr), (∀ c ∈ a1, ¬ c = '-') → (∀ c ∈ a2, ¬ c = '-') →
      a1 ++ '-' :: b1 = a2 ++ '-' :: b2 → a1 = a2 ∧ b1 = b2 := by
  intro a1
  induction a1 with
  | nil =>
    intro a2 b1 b2 _ h2 heq
    cases a2 with
    | nil =>
      simp at heq
      exact ⟨rfl, heq⟩
    | cons d a2' =>
      rw [List.nil_append, List.cons_append] at heq
      have hd : d = '-' := (List.cons.injEq _ _ _ _ ▸ heq).1.symm
      exact absurd hd (h2 d (by simp))
  | cons c a1' ih =>
    intro a2 b1 b2 h1 h2 heq
    cases a2 with
    | nil =>
      rw [List.cons_append, List.nil_append] at heq
      have hc : c = '-' := (List.cons.injEq _ _ _ _ ▸ heq).1
      exact absurd hc (h1 c (by simp))
    | cons d a2' =>
      rw [List.cons_append, List.cons_append] at heq
      have hcd := (List.cons.injEq _ _ _ _ ▸ heq).1
      have htail := (List.cons.injEq _ _ _ _ ▸ heq).2
      obtain ⟨he, hb⟩ := ih a2' b1 b2 (fun x hx => h1 x (by simp [hx]))
        (fun x hx => h2 x (by simp [hx])) htail
      exact ⟨by rw [hcd, he], hb⟩

theorem keyDecomp_unique (url1 url2 d1 d2 : GoStr)
    (h1 : ∀ c ∈ d1, ¬ c = '-') (h2 : ∀ c ∈ d2, ¬ c = '-')
    (heq : url1 ++ '-' :: d1 = url2 ++ '-' :: d2) : url1 = url2 ∧ d1 = d2 := by
  have hrev : d1.reverse ++ '-' :: url1.reverse = d2.reverse ++ '-' :: url2.reverse := by
    have h := congrArg List.reverse heq
    simpa [List.reverse_append] using h
  obtain ⟨hd, hu⟩ := firstDash_unique d1.reverse d2.reverse url1.reverse url2.reverse
    (fun c hc => h1 c (List.mem_reverse.mp hc))
    (fun c hc => h2 c (List.mem_reverse.mp hc)) hrev
  exact ⟨List.reverse_injective hu, List.reverse_injective hd⟩

theorem findIdx_append_first (p : Char → Bool) (l : GoStr) (x : Char) (t : GoStr)
    (hl : ∀ c ∈ l, p c = false) (hx : p x = true) :
    List.findIdx p (l ++ x :: t) = l.length := by
  induction l with
  | nil => simp [List.findIdx_cons, hx]
  | cons c l' ih =>
    rw [List.cons_append, List.findIdx_cons, hl c (by simp)]
    rw [ih (fun c hc => hl c (by simp [hc]))]
    rfl

theorem goTakeToLastDash_key (url d : GoStr) (hd : ∀ c ∈ d, ¬ c = '-') :
    goTakeToLastDash (url ++ '-' :: d) = url := by
  unfold goTakeToLastDash
  have hrev : (url ++ '-' :: d).reverse = d.reverse ++ '-' :: url.reverse := by
    simp [List.reverse_append]
  rw [hrev, findIdx_append_first _ _ _ _
    (fun c hc => decide_eq_false (hd c (List.mem_reverse.mp hc))) (by simp)]
  have hlen : (url ++ '-' :: d).length = url.length + (d.length + 1) := by simp
  rw [hlen, List.length_reverse]
  have harith : url.length + (d.length + 1) - 1 - d.length = url.length := by omega
  rw [harith]
  have : url ++ '-' :: d = url ++ ('-' :: d) := rfl
  rw [this, List.take_left]

/-! ### The search-state invariant -/

/-- The database candidate behind a committed entry `(key, idx, v)`:
the key has the `url-<major>` shape, the candidate sits at `idx` in the
url's list, carries version `v` and passes the SDK gate. -/
def EntryCand (env : SolverEnv) (e : GoStr × Nat × GoVersion) (url : GoStr)
    (cand : SolverPkg) : Prop :=
  e.1 = url ++ '-' :: natDigits e.2.2.major ∧
  (∃ avail, lookupA env.db url = some avail ∧ avail[e.2.1]? = some cand) ∧
  cand.version = e.2.2 ∧ sdkTooSmall env cand = false

/-- Alignment of the undo stack with the partial solution and the running
minimum SDK: every commit frame snapshots the state it restores, every
no-op frame leaves it unchanged, and the running minimum is the chain of
`goUpdateMin` updates over the committed candidates. -/
inductive Aligned (env : SolverEnv) (initial : Option GoVersion) :
    List UndoInfo → List (GoStr × Nat × GoVersion) → Option GoVersion → Prop
  | nil : Aligned env initial [] [] initial
  | noop (u : UndoInfo) (us : List UndoInfo)
      (pkgs : List (GoStr × Nat × GoVersion)) (m : Option GoVersion) :
      u.urlVersion = [] → u.minSDK = m → Aligned env initial us pkgs m →
      Aligned env initial (u :: us) pkgs m
  | commit (u : UndoInfo) (us : List UndoInfo)
      (rest : List (GoStr × Nat × GoVersion)) (idx : Nat) (v : GoVersion)
      (url : GoStr) (cand : SolverPkg) :
      u.urlVersion ≠ [] →
      EntryCand env (u.urlVersion, idx, v) url cand →
      lookupA rest u.urlVersion = none →
      Aligned env initial us rest u.minSDK →
      Aligned env initial (u :: us) ((u.urlVersion, idx, v) :: rest)
        (goUpdateMin u.minSDK cand.minSDK)

theorem solveDepLoop_success_aligned (env : SolverEnv) (init : Option GoVersion)
    (dep : SolverDep) (available : List SolverPkg) (w : WarnLog)
    (st : SolverState) (hav : lookupA env.db dep.url = some available)
    (hal : Aligned env init st.undos st.pkgs st.minSDK) :
    ∀ (rem index : Nat) (f m : Bool) (w2 : WarnLog) (st2 : SolverState)
      (c2 : Nat) (u2 : UndoInfo),
      solveDepLoop env dep available w st rem index f m = (w2, st2, true, c2, u2) →
      st2.undos = st.undos ∧ st2.continuations = st.continuations ∧
      st2.workingQueue.length ≥ st.workingQueue.length ∧
      Aligned env init (u2 :: st.undos) st2.pkgs st2.minSDK := by
  intro rem
  induction rem with
  | zero =>
    intro index f m w2 st2 c2 u2 h
    unfold solveDepLoop at h
    dsimp only at h
    split at h <;> exact absurd (congrArg (fun r => r.2.2.1) h) (by simp)
  | succ rem ih =>
    intro index f m w2 st2 c2 u2 h
    unfold solveDepLoop at h
    split at h
    · dsimp only at h
      split at h
      · exact ih _ _ _ _ _ _ _ h
      · split at h
        · exact ih _ _ _ _ _ _ _ h
        · split at h
          · split at h
            · exact ih _ _ _ _ _ _ _ h
            · -- no-op commit: the committed version is the current candidate
              have hw : st2 = st ∧ u2 = { minSDK := st.minSDK,
                                          workingQueueLen := st.workingQueue.length,
                                          urlVersion := [] } := by
                have h1 := congrArg (fun r => r.2.1) h
                have h2 := congrArg (fun r => r.2.2.2.2) h
                exact ⟨h1.symm, h2.symm⟩
              obtain ⟨rfl, rfl⟩ := hw
              exact ⟨rfl, rfl, le_refl _, Aligned.noop _ _ _ _ rfl rfl hal⟩
          · -- fresh commit
            rename_i hidx _ hsdk _ hlook
            have hst2 := congrArg (fun r => r.2.1) h
            have hu2 := congrArg (fun r => r.2.2.2.2) h
            dsimp only at hst2 hu2
            subst hu2
            rw [← hst2]
            refine ⟨rfl, rfl, by simp, ?_⟩
            have hcommit := @Aligned.commit env init
              { minSDK := st.minSDK, workingQueueLen := st.workingQueue.length,
                urlVersion := dep.url ++ '-' ::
                  natDigits (available.get ⟨index, hidx⟩).version.major }
              st.undos st.pkgs index (available.get ⟨index, hidx⟩).version dep.url
              (available.get ⟨index, hidx⟩)
              (by simp)
              ⟨rfl, ⟨available, hav, by rw [List.getElem?_eq_getElem hidx]; rfl⟩, rfl,
                by simpa using hsdk⟩
              hlook hal
            exact hcommit
    · split at h <;> exact absurd (congrArg (fun r => r.2.2.1) h) (by simp)

theorem solveDepLoop_failure_state (env : SolverEnv) (dep : SolverDep)
    (available : List SolverPkg) (w : WarnLog) (st : SolverState) :
    ∀ (rem index : Nat) (f m : Bool) (w2 : WarnLog) (st2 : SolverState)
      (c2 : Nat) (u2 : UndoInfo),
      solveDepLoop env dep available w st rem index f m = (w2, st2, false, c2, u2) →
      st2 = st := by
  intro rem
  induction rem with
  | zero =>
    intro index f m w2 st2 c2 u2 h
    unfold solveDepLoop at h
    dsimp only at h
    split at h <;> exact (congrArg (fun r => r.2.1) h).symm
  | succ rem ih =>
    intro index f m w2 st2 c2 u2 h
    unfold solveDepLoop at h
    split at h
    · dsimp only at h
      split at h
      · exact ih _ _ _ _ _ _ _ h
      · split at h
        · exact ih _ _ _ _ _ _ _ h
        · split at h
          · split at h
            · exact ih _ _ _ _ _ _ _ h
            · exact absurd (congrArg (fun r => r.2.2.1) h) (by simp)
          · exact absurd (congrArg (fun r => r.2.2.1) h) (by simp)
    · split at h <;> exact (congrArg (fun r => r.2.1) h).symm

theorem solveDep_success_aligned (env : SolverEnv) (init : Option GoVersion)
    (w : WarnLog) (st : SolverState) (dep : SolverDep) (cont : Nat)
    (hal : Aligned env init st.undos st.pkgs st.minSDK)
    (w2 : WarnLog) (st2 : SolverState) (c2 : Nat) (u2 : UndoInfo)
    (h : solveDep env w st dep cont = (w2, st2, true, c2, u2)) :
    st2.undos = st.undos ∧ st2.continuations = st.continuations ∧
    Aligned env init (u2 :: st.undos) st2.pkgs st2.minSDK := by
  unfold solveDep at h
  split at h
  · exact absurd (congrArg (fun r => r.2.2.1) h) (by simp)
  · rename_i available hav
    obtain ⟨h1, h2, _, h4⟩ :=
      solveDepLoop_success_aligned env init dep available w st hav hal _ _ _ _ _ _ _ _ h
    exact ⟨h1, h2, h4⟩

theorem solveDep_failure_state (env : SolverEnv) (w : WarnLog) (st : SolverState)
    (dep : SolverDep) (cont : Nat) (w2 : WarnLog) (st2 : SolverState)
    (c2 : Nat) (u2 : UndoInfo)
    (h : solveDep env w st dep cont = (w2, st2, false, c2, u2)) :
    st2 = st := by
  unfold solveDep at h
  split at h
  · exact (congrArg (fun r => r.2.1) h).symm
  · exact solveDepLoop_failure_state env _ _ w st _ _ _ _ _ _ _ _ h

theorem aligned_cons_inv (env : SolverEnv) (init : Option GoVersion)
    (u : UndoInfo) (us : List UndoInfo) (pkgs : List (GoStr × Nat × GoVersion))
    (m : Option GoVersion) (h : Aligned env init (u :: us) pkgs m) :
    (u.urlVersion = [] ∧ u.minSDK = m ∧ Aligned env init us pkgs m) ∨
    (∃ idx v url cand rest, u.urlVersion ≠ [] ∧
      pkgs = (u.urlVersion, idx, v) :: rest ∧
      EntryCand env (u.urlVersion, idx, v) url cand ∧
      lookupA rest u.urlVersion = none ∧
      Aligned env init us rest u.minSDK ∧ m = goUpdateMin u.minSDK cand.minSDK) := by
  cases h with
  | noop _ _ _ _ h1 h2 h3 => exact Or.inl ⟨h1, h2, h3⟩
  | commit _ _ rest idx v url cand h1 h2 h3 h4 =>
    exact Or.inr ⟨idx, v, url, cand, rest, h1, rfl, h2, h3, h4, rfl⟩

theorem applyUndo_pkgs (st : SolverState) (u : UndoInfo) :
    (applyUndo st u).pkgs =
      if u.urlVersion ≠ [] then eraseKey st.pkgs u.urlVersion else st.pkgs := by
  unfold applyUndo
  dsimp only
  split <;> split <;> simp_all

theorem applyUndo_minSDK (st : SolverState) (u : UndoInfo) :
    (applyUndo st u).minSDK = u.minSDK := by
  rfl

theorem applyUndo_undos (st : SolverState) (u : UndoInfo) :
    (applyUndo st u).undos = st.undos := by
  unfold applyUndo
  dsimp only
  split <;> first | rfl | (split <;> rfl)

theorem eraseKey_cons_self {β : Type} (k : GoStr) (a : β)
    (rest : List (GoStr × β)) (h : lookupA rest k = none) :
    eraseKey ((k, a) :: rest) k = rest := by
  unfold eraseKey
  rw [List.filter_cons, if_neg (by simp)]
  have := eraseKey_of_lookupA_none h
  unfold eraseKey at this
  exact this

theorem applyUndo_aligned (env : SolverEnv) (init : Option GoVersion)
    (st : SolverState) (u : UndoInfo) (us : List UndoInfo)
    (hal : Aligned env init (u :: us) st.pkgs st.minSDK) :
    Aligned env init us (applyUndo { st with undos := us } u).pkgs
      (applyUndo { st with undos := us } u).minSDK := by
  rw [applyUndo_pkgs, applyUndo_minSDK]
  rcases aligned_cons_inv _ _ _ _ _ _ hal with
    ⟨h1, h2, h3⟩ | ⟨idx, v, url, cand, rest, h1, h2, h3, h4, h5, h6⟩
  · rw [if_neg (by simp [h1]), h2]
    exact h3
  · rw [if_pos h1]
    show Aligned env init us (eraseKey st.pkgs u.urlVersion) u.minSDK
    rw [h2, eraseKey_cons_self _ _ _ h4]
    exact h5

theorem solveLoop_success_aligned (env : SolverEnv) (init : Option GoVersion) :
    ∀ (fuel : Nat) (w : WarnLog) (st : SolverState) (wi : Int),
      Aligned env init st.undos st.pkgs st.minSDK →
      ∀ sol, (solveLoop env fuel w st wi).2 = some (some sol) →
        ∃ st', Aligned env init st'.undos st'.pkgs st'.minSDK ∧
          sol = solutionOf st' := by
  intro fuel
  induction fuel with
  | zero =>
    intro w st wi hal sol h
    simp [solveLoop] at h
  | succ fuel ih =>
    intro w st wi hal sol h
    unfold solveLoop at h
    split at h
    · refine ⟨st, hal, ?_⟩
      have := Option.some.inj (Option.some.inj (congrArg id h))
      exact this.symm
    · split at h
      · exact absurd (Option.some.inj h) (by simp)
      · dsimp only at h
        by_cases hpop : st.continuations.length = wi.toNat + 1
        · simp only [if_pos hpop] at h
          rcases hsd : solveDep env w { st with continuations := st.continuations.tail }
            (st.workingQueue.getD wi.toNat { url := [], constraints := [] })
            (st.continuations.headD 0) with ⟨w2, st2, succ2, c2, u2⟩
          rw [hsd] at h
          dsimp only at h
          cases succ2 with
          | true =>
            rw [if_pos rfl] at h
            obtain ⟨hu, _, hal2⟩ := solveDep_success_aligned env init w
              { st with continuations := st.continuations.tail } _ _ hal w2 st2 c2 u2 hsd
            refine ih w2 _ _ ?_ sol h
            show Aligned env init (u2 :: st2.undos) st2.pkgs st2.minSDK
            rw [hu]
            exact hal2
          | false =>
            rw [if_neg (by simp)] at h
            have hst2 : st2 = { st with continuations := st.continuations.tail } :=
              solveDep_failure_state env w _ _ _ w2 st2 c2 u2 hsd
            split at h
            · rename_i hnil
              refine ih w2 st2 _ ?_ sol h
              rw [hst2]
              exact hal
            · rename_i u us hcons
              refine ih w2 _ _ ?_ sol h
              have hundos : st2.undos = u :: us := hcons
              have halc : Aligned env init (u :: us) st2.pkgs st2.minSDK := by
                rw [← hundos, hst2]
                exact hal
              have := applyUndo_aligned env init st2 u us halc
              rw [applyUndo_undos]
              exact this
        · simp only [if_neg hpop] at h
          rcases hsd : solveDep env w st
            (st.workingQueue.getD wi.toNat { url := [], constraints := [] }) 0
            with ⟨w2, st2, succ2, c2, u2⟩
          rw [hsd] at h
          dsimp only at h
          cases succ2 with
          | true =>
            rw [if_pos rfl] at h
            obtain ⟨hu, _, hal2⟩ := solveDep_success_aligned env init w st _ _ hal
              w2 st2 c2 u2 hsd
            refine ih w2 _ _ ?_ sol h
            show Aligned env init (u2 :: st2.undos) st2.pkgs st2.minSDK
            rw [hu]
            exact hal2
          | false =>
            rw [if_neg (by simp)] at h
            have hst2 : st2 = st := solveDep_failure_state env w _ _ _ w2 st2 c2 u2 hsd
            split at h
            · refine ih w2 st2 _ ?_ sol h
              rw [hst2]
              exact hal
            · rename_i u us hcons
              refine ih w2 _ _ ?_ sol h
              have halc : Aligned env init (u :: us) st2.pkgs st2.minSDK := by
                rw [← hcons, hst2]
                exact hal
              have := applyUndo_aligned env init st2 u us halc
              rw [applyUndo_undos]
              exact this

/-! ### Consequences of the invariant -/

/-- Order on optional versions; `none` (no constraint) is below everything. -/
def optVLe : Option GoVersion → Option GoVersion → Prop
  | none, _ => True
  | some _, none => False
  | some a, some b => a.key ≤ b.key

instance : ∀ a b : Option GoVersion, Decidable (optVLe a b)
  | none, _ => isTrue trivial
  | some _, none => isFalse id
  | some a, some b => inferInstanceAs (Decidable (a.key ≤ b.key))

theorem optVLe_refl (a : Option GoVersion) : optVLe a a := by
  cases a with
  | none => trivial
  | some x => exact le_refl _

theorem optVLe_trans {a b c : Option GoVersion} (h1 : optVLe a b) (h2 : optVLe b c) :
    optVLe a c := by
  cases a with
  | none => trivial
  | some x =>
    cases b with
    | none => exact absurd h1 id
    | some y =>
      cases c with
      | none => exact absurd h2 id
      | some z => exact le_trans h1 h2

theorem goUpdateMin_le_left (a b : Option GoVersion) : optVLe a (goUpdateMin a b) := by
  cases a with
  | none => trivial
  | some m =>
    cases b with
    | none => exact le_refl m.key
    | some c =>
      show optVLe (some m) (if m.key < c.key then some c else some m)
      by_cases h : m.key < c.key
      · rw [if_pos h]
        exact le_of_lt h
      · rw [if_neg h]
        exact le_refl m.key

theorem goUpdateMin_le_right (a b : Option GoVersion) : optVLe b (goUpdateMin a b) := by
  cases b with
  | none => trivial
  | some c =>
    cases a with
    | none => exact le_refl c.key
    | some m =>
      show optVLe (some c) (if m.key < c.key then some c else some m)
      by_cases h : m.key < c.key
      · rw [if_pos h]
        exact le_refl c.key
      · rw [if_neg h]
        exact le_of_not_lt h

theorem goUpdateMin_cases (a b : Option GoVersion) :
    goUpdateMin a b = a ∨ goUpdateMin a b = b := by
  cases a with
  | none => exact Or.inr rfl
  | some m =>
    cases b with
    | none => exact Or.inl rfl
    | some c =>
      show (if m.key < c.key then some c else some m) = some m ∨
        (if m.key < c.key then some c else some m) = some c
      by_cases h : m.key < c.key
      · rw [if_pos h]
        exact Or.inr rfl
      · rw [if_neg h]
        exact Or.inl rfl

theorem entryCand_unique (env : SolverEnv) (e : GoStr × Nat × GoVersion)
    {url1 url2 : GoStr} {cand1 cand2 : SolverPkg}
    (h1 : EntryCand env e url1 cand1) (h2 : EntryCand env e url2 cand2) :
    url1 = url2 ∧ cand1 = cand2 := by
  have hkey := h1.1.symm.trans h2.1
  obtain ⟨hu, -⟩ := keyDecomp_unique url1 url2 _ _
    (natDigits_dashfree _) (natDigits_dashfree _) hkey
  subst hu
  obtain ⟨a1, ha1, hg1⟩ := h1.2.1
  obtain ⟨a2, ha2, hg2⟩ := h2.2.1
  rw [ha1] at ha2
  have haa := Option.some.inj ha2
  rw [← haa] at hg2
  rw [hg1] at hg2
  exact ⟨rfl, Option.some.inj hg2⟩

theorem entryCand_url (env : SolverEnv) (e : GoStr × Nat × GoVersion)
    {url : GoStr} {cand : SolverPkg} (h : EntryCand env e url cand) :
    goTakeToLastDash e.1 = url := by
  rw [h.1]
  exact goTakeToLastDash_key url _ (natDigits_dashfree _)

theorem aligned_keys_nodup {env : SolverEnv} {init : Option GoVersion}
    {us : List UndoInfo} {pkgs : List (GoStr × Nat × GoVersion)}
    {m : Option GoVersion} (h : Aligned env init us pkgs m) :
    (pkgs.map Prod.fst).Nodup := by
  induction h with
  | nil => exact List.nodup_nil
  | noop _ _ _ _ _ _ _ ih => exact ih
  | commit u us rest idx v url cand h1 h2 h3 h4 ih =>
    simp only [List.map_cons, List.nodup_cons]
    exact ⟨lookupA_none_not_mem_keys h3, ih⟩

theorem aligned_entries {env : SolverEnv} {init : Option GoVersion}
    {us : List UndoInfo} {pkgs : List (GoStr × Nat × GoVersion)}
    {m : Option GoVersion} (h : Aligned env init us pkgs m) :
    ∀ e ∈ pkgs, ∃ url cand, EntryCand env e url cand := by
  induction h with
  | nil => simp
  | noop _ _ _ _ _ _ _ ih => exact ih
  | commit u us rest idx v url cand h1 h2 h3 h4 ih =>
    intro e he
    rcases List.mem_cons.mp he with he | he
    · subst he
      exact ⟨url, cand, h2⟩
    · exact ih e he

theorem aligned_min_mem {env : SolverEnv} {init : Option GoVersion}
    {us : List UndoInfo} {pkgs : List (GoStr × Nat × GoVersion)}
    {m : Option GoVersion} (h : Aligned env init us pkgs m) :
    m = init ∨ ∃ e ∈ pkgs, ∃ url cand, EntryCand env e url cand ∧ m = cand.minSDK := by
  induction h with
  | nil => exact Or.inl rfl
  | noop _ _ _ _ _ _ _ ih => exact ih
  | commit u us rest idx v url cand h1 h2 h3 h4 ih =>
    rcases goUpdateMin_cases u.minSDK cand.minSDK with hc | hc
    · rw [hc]
      rcases ih with hi | ⟨e, he, url', cand', hec, hmc⟩
      · exact Or.inl hi
      · exact Or.inr ⟨e, List.mem_cons_of_mem _ he, url', cand', hec, hmc⟩
    · rw [hc]
      exact Or.inr ⟨(u.urlVersion, idx, v), List.mem_cons_self _ _, url, cand, h2, rfl⟩

theorem aligned_min_le {env : SolverEnv} {init : Option GoVersion}
    {us : List UndoInfo} {pkgs : List (GoStr × Nat × GoVersion)}
    {m : Option GoVersion} (h : Aligned env init us pkgs m) :
    optVLe init m ∧
    ∀ e ∈ pkgs, ∀ url cand, EntryCand env e url cand → optVLe cand.minSDK m := by
  induction h with
  | nil => exact ⟨optVLe_refl _, by simp⟩
  | noop _ _ _ _ _ _ _ ih => exact ih
  | commit u us rest idx v url cand h1 h2 h3 h4 ih =>
    have hle : optVLe u.minSDK (goUpdateMin u.minSDK cand.minSDK) :=
      goUpdateMin_le_left _ _
    constructor
    · exact optVLe_trans ih.1 hle
    · intro e he url' cand' hec
      rcases List.mem_cons.mp he with he | he
      · subst he
        obtain ⟨-, hcc⟩ := entryCand_unique env _ hec h2
        rw [hcc]
        exact goUpdateMin_le_right _ _
      · exact optVLe_trans (ih.2 e he url' cand' hec) hle

theorem solutionOf_bucket_fold (l : List (GoStr × Nat × GoVersion)) :
    ∀ (acc : List (GoStr × List (GoStr × GoVersion))) (url : GoStr)
      (x : GoStr × GoVersion),
      (x ∈ (lookupA (l.foldl (fun acc e =>
          appendA acc (goTakeToLastDash e.1) (e.2.2.render, e.2.2)) acc) url).getD []
        ↔ x ∈ (lookupA acc url).getD [] ∨
          ∃ e ∈ l, goTakeToLastDash e.1 = url ∧ x = (e.2.2.render, e.2.2)) := by
  induction l with
  | nil =>
    intro acc url x
    rw [List.foldl_nil]
    constructor
    · intro hx
      exact Or.inl hx
    · rintro (hx | ⟨e, he, -, -⟩)
      · exact hx
      · exact absurd he (List.not_mem_nil e)
  | cons e l' ih =>
    intro acc url x
    rw [List.foldl_cons, ih]
    have happ : x ∈ (lookupA (appendA acc (goTakeToLastDash e.1)
        (e.2.2.render, e.2.2)) url).getD [] ↔
        x ∈ (lookupA acc url).getD [] ∨
          (goTakeToLastDash e.1 = url ∧ x = (e.2.2.render, e.2.2)) := by
      unfold appendA
      rw [lookupA_insertA]
      by_cases hu : url = goTakeToLastDash e.1
      · rw [if_pos hu]
        subst hu
        simp only [Option.getD_some, List.mem_append, List.mem_singleton]
        constructor
        · rintro (hx | hx)
          · exact Or.inl hx
          · exact Or.inr ⟨trivial, hx⟩
        · rintro (hx | ⟨-, hx⟩)
          · exact Or.inl hx
          · exact Or.inr hx
      · rw [if_neg hu]
        constructor
        · intro hx
          exact Or.inl hx
        · rintro (hx | ⟨hh, -⟩)
          · exact hx
          · exact absurd hh.symm hu
    rw [happ]
    constructor
    · rintro ((hx | hx) | ⟨e', he', h1, h2⟩)
      · exact Or.inl hx
      · exact Or.inr ⟨e, List.mem_cons_self _ _, hx.1, hx.2⟩
      · exact Or.inr ⟨e', List.mem_cons_of_mem _ he', h1, h2⟩
    · rintro (hx | ⟨e', he', h1, h2⟩)
      · exact Or.inl (Or.inl hx)
      · rcases List.mem_cons.mp he' with he' | he'
        · subst he'
          exact Or.inl (Or.inr ⟨h1, h2⟩)
        · exact Or.inr ⟨e', he', h1, h2⟩

theorem selectedIn_solutionOf (st : SolverState) (url : GoStr) (v : GoVersion) :
    selectedIn (solutionOf st) url v ↔
      ∃ key idx, (key, idx, v) ∈ st.pkgs ∧ goTakeToLastDash key = url := by
  unfold selectedIn solutionOf
  constructor
  · rintro ⟨p, hp, hpv⟩
    dsimp only at hp
    rw [solutionOf_bucket_fold] at hp
    rcases hp with hp | ⟨e, he, hurl, hx⟩
    · simp [lookupA] at hp
    · refine ⟨e.1, e.2.1, ?_, hurl⟩
      have hv : e.2.2 = v := by
        rw [hx] at hpv
        exact hpv
      rw [← hv]
      exact he
  · rintro ⟨key, idx, hmem, hurl⟩
    refine ⟨(v.render, v), ?_, rfl⟩
    dsimp only
    rw [solutionOf_bucket_fold]
    exact Or.inr ⟨(key, idx, v), hmem, hurl, rfl⟩

theorem lookupA_mem {β : Type} {m : List (GoStr × β)} {k : GoStr} {v : β}
    (h : lookupA m k = some v) : (k, v) ∈ m := by
  induction m with
  | nil => simp [lookupA] at h
  | cons e m' ih =>
    rw [show e = (e.1, e.2) from rfl, lookupA_cons] at h
    by_cases he : e.1 = k
    · rw [if_pos he] at h
      have := Option.some.inj h
      rw [show e = (e.1, e.2) from rfl, he, this]
      exact List.mem_cons_self _ _
    · rw [if_neg he] at h
      exact List.mem_cons_of_mem _ (ih h)

theorem solve_success_aligned (env : SolverEnv) (fuel : Nat)
    (minSDK : Option GoVersion) (deps : List SolverDep) (sol : Solution)
    (h : (solve env fuel minSDK deps).2 = some (some sol)) :
    ∃ st', Aligned env minSDK st'.undos st'.pkgs st'.minSDK ∧
      sol = solutionOf st' := by
  unfold solve at h
  dsimp only at h
  split at h
  · exact absurd (Option.some.inj h) (by simp)
  · exact solveLoop_success_aligned env minSDK fuel _ _ 0 Aligned.nil sol h

/-- C1 (amended): a successful solve selects at most one version per
`(url, major)` pair, and every selected version is one of the database's
candidates for its url whose minimum SDK does not exceed the ambient SDK;
the selected version need not be the maximum database version satisfying
every active constraint on the url, because a higher candidate can be
abandoned when its transitive dependencies are unsolvable. -/
theorem solve_selection_sound (env : SolverEnv) (fuel : Nat)
    (minSDK : Option GoVersion) (deps : List SolverDep) (sol : Solution)
    (h : (solve env fuel minSDK deps).2 = some (some sol)) :
    (∀ url v1 v2, selectedIn sol url v1 → selectedIn sol url v2 →
      v1.major = v2.major → v1 = v2)
    ∧ (∀ url v, selectedIn sol url v →
        ∃ avail cand, lookupA env.db url = some avail ∧ cand ∈ avail ∧
          cand.version = v ∧ sdkTooSmall env cand = false) := by
  obtain ⟨st', hal, rfl⟩ := solve_success_aligned env fuel minSDK deps sol h
  constructor
  · intro url v1 v2 h1 h2 hmaj
    rw [selectedIn_solutionOf] at h1 h2
    obtain ⟨k1, i1, hm1, hu1⟩ := h1
    obtain ⟨k2, i2, hm2, hu2⟩ := h2
    obtain ⟨url1, cand1, hec1⟩ := aligned_entries hal _ hm1
    obtain ⟨url2, cand2, hec2⟩ := aligned_entries hal _ hm2
    have hu1' : url1 = url := by
      rw [← hu1, entryCand_url env _ hec1]
    have hu2' : url2 = url := by
      rw [← hu2, entryCand_url env _ hec2]
    have hk1 : k1 = url ++ '-' :: natDigits v1.major := by
      rw [← hu1']
      exact hec1.1
    have hk2 : k2 = url ++ '-' :: natDigits v2.major := by
      rw [← hu2']
      exact hec2.1
    have hkk : k1 = k2 := by
      rw [hk1, hk2, hmaj]
    rw [hkk] at hm1
    have hiv := keys_nodup_mem_unique (aligned_keys_nodup hal) hm1 hm2
    exact congrArg Prod.snd hiv
  · intro url v hsel
    rw [selectedIn_solutionOf] at hsel
    obtain ⟨k, i, hm, hu⟩ := hsel
    obtain ⟨url', cand, hec⟩ := aligned_entries hal _ hm
    have hurl : url' = url := by
      rw [← hu, entryCand_url env _ hec]
    obtain ⟨avail, hav, hg⟩ := hec.2.1
    refine ⟨avail, cand, ?_, ?_, hec.2.2.1, hec.2.2.2⟩
    · rw [← hurl]
      exact hav
    · exact List.getElem?_mem hg

/-- C1 (amended, witness): at the counterexample input the solver selected
`2.0.0` for `b`, which is indeed a database candidate for `b` passing the
SDK gate. -/
theorem solve_selection_sound_witness :
    ∃ avail cand, lookupA (NewSolver exEntriesC1 none).db "b".data = some avail ∧
      cand ∈ avail ∧ cand.version = { given := [2, 0, 0] } ∧
      sdkTooSmall (NewSolver exEntriesC1 none) cand = false :=
  (solve_selection_sound (NewSolver exEntriesC1 none) 20 none exDepsC1
    { pkgs := [("b".data, [("2.0.0".data, { given := [2, 0, 0] })])] } (by decide)).2
    "b".data { given := [2, 0, 0] }
    ⟨("2.0.0".data, { given := [2, 0, 0] }), by decide, rfl⟩

/-- C4: for a database holding at most one candidate per `(url, version)`,
the minimum SDK of a successful solution is the maximum of the project's
own requirement and the minimum SDKs of the selected package versions: it
bounds all of them from above and is one of them (or the project's own),
absent constraints contributing nothing. -/
theorem solve_minSDK_is_max (env : SolverEnv) (fuel : Nat)
    (minSDK : Option GoVersion) (deps : List SolverDep) (sol : Solution)
    (huniq : ∀ e ∈ env.db, e.2.Pairwise (fun a b => a.version ≠ b.version))
    (h : (solve env fuel minSDK deps).2 = some (some sol)) :
    optVLe minSDK sol.minSDK
    ∧ (∀ url v avail cand, selectedIn sol url v →
        lookupA env.db url = some avail → cand ∈ avail → cand.version = v →
        optVLe cand.minSDK sol.minSDK)
    ∧ (sol.minSDK = minSDK ∨
        ∃ url v avail cand, selectedIn sol url v ∧
          lookupA env.db url = some avail ∧ cand ∈ avail ∧ cand.version = v ∧
          sol.minSDK = cand.minSDK) := by
  obtain ⟨st', hal, rfl⟩ := solve_success_aligned env fuel minSDK deps sol h
  have hle := aligned_min_le hal
  refine ⟨hle.1, ?_, ?_⟩
  · intro url v avail cand hsel hav hcand hver
    rw [selectedIn_solutionOf] at hsel
    obtain ⟨k, i, hm, hu⟩ := hsel
    obtain ⟨url', cand', hec⟩ := aligned_entries hal _ hm
    have hurl : url' = url := by
      rw [← hu, entryCand_url env _ hec]
    obtain ⟨avail', hav', hg⟩ := hec.2.1
    rw [hurl, hav] at hav'
    have havv := Option.some.inj hav'
    subst havv
    have hmem' : cand' ∈ avail := List.getElem?_mem hg
    have hcc : cand = cand' := by
      by_cases hne : cand = cand'
      · exact hne
      · exfalso
        have hp := huniq (url, avail) (lookupA_mem hav)
        have hvv : cand.version = cand'.version := by
          rw [hver, hec.2.2.1]
        have hsym : Symmetric (fun (a b : SolverPkg) => a.version ≠ b.version) :=
          fun x y hxy hyx => hxy hyx.symm
        exact (List.Pairwise.forall hsym hp hcand hmem' hne) hvv
    rw [hcc]
    exact hle.2 _ hm url' cand' hec
  · rcases aligned_min_mem hal with hi | ⟨e, he, url', cand', hec, hmc⟩
    · exact Or.inl hi
    · right
      obtain ⟨avail, hav, hg⟩ := hec.2.1
      refine ⟨url', e.2.2, avail, cand', ?_, hav, List.getElem?_mem hg,
        hec.2.2.1, hmc⟩
      rw [selectedIn_solutionOf]
      exact ⟨e.1, e.2.1, by
        rw [show (e.1, e.2.1, e.2.2) = e from rfl]
        exact he, entryCand_url env _ hec⟩

/-- The database for the C4 witness: one package `a-1.0.0` with minimum
SDK `1.1.0`. -/
def exEntriesC4 : List DescEntry :=
  [⟨"a".data, { given := [1, 0, 0] }, [], some { given := [1, 1, 0] }⟩]

/-- C4 (witness): with ambient SDK 2.0.0 and project minimum 1.0.0, solving
for `a` yields effective minimum SDK 1.1.0, the maximum of 1.0.0 and the
selected package's 1.1.0. -/
theorem solve_minSDK_is_max_witness :
    optVLe (some { given := [1, 0, 0] }) (some { given := [1, 1, 0] }) ∧
    optVLe (some { given := [1, 1, 0] }) (some { given := [1, 1, 0] }) :=
  have hmax := solve_minSDK_is_max
    (NewSolver exEntriesC4 (some { given := [2, 0, 0] })) 10
    (some { given := [1, 0, 0] }) [⟨"a".data, []⟩]
    { pkgs := [("a".data, [("1.0.0".data, { given := [1, 0, 0] })])],
      minSDK := some { given := [1, 1, 0] } }
    (by decide) (by decide)
  ⟨hmax.1,
   hmax.2.1 "a".data { given := [1, 0, 0] }
     [{ version := { given := [1, 0, 0] }, deps := [],
        minSDK := some { given := [1, 1, 0] } }]
     { version := { given := [1, 0, 0] }, deps := [],
       minSDK := some { given := [1, 1, 0] } }
     ⟨("1.0.0".data, { given := [1, 0, 0] }), by decide, rfl⟩
     (by decide) (by decide) rfl⟩
